import Mathlib

/-!
Verification development for the kakuro solver `kakuro-kuso.py`.

The Python source is shallowly embedded: candidate sets of cells become
`Finset ℕ`, the grid becomes a flat `List` of entries with explicit width and
height, mutation becomes explicit state passing, and a Python `assert` that can
fail (raising `AssertionError`) is modelled by an `Option` result, `none`
standing for the raised exception (so a `none` result carries no partial
state, matching the fact that the caller never sees a return value).
-/

/-- `triangular(n) = n*(n+1)/2` from the source.  The Python version divides
with `/` producing a float, but on integer inputs `n*(n+1)` is even, so the
value is always an exact integer; we use `ℤ` with exact division. -/
def triangular (n : ℤ) : ℤ := n * (n + 1) / 2

/-- `triangular_prime(n, base=10) = n*base - triangular(n)` from the source,
with the only used base, `10`, fixed.  It equals `9 + 8 + ... + (10 - n)`,
the largest sum of `n` distinct digits at most `9`. -/
def triangular_prime (n : ℤ) : ℤ := n * 10 - triangular n

/-- The entries of the global `lookup` dict, in the order the source inserts
them: first `(i, 1) ↦ {i}` for `i` in `1..9`, then for `i` in `2..9` the
extremal entries, plus (for `i < 9`) the near-extremal entries obtained with
symmetric difference exactly as in the source. -/
def lookupEntries : List ((ℤ × ℕ) × Finset ℕ) :=
  ((List.range 9).map (fun j =>
    let i : ℕ := j + 1
    ((((i : ℤ), 1) : ℤ × ℕ), ({i} : Finset ℕ)))) ++
  ((List.range 8).flatMap (fun j =>
    let i : ℕ := j + 2
    let ti : ℤ := triangular i
    let invti : ℤ := triangular_prime i
    let minset : Finset ℕ := Finset.Icc 1 i
    let maxset : Finset ℕ := Finset.Icc (10 - i) 9
    [((ti, i), minset), ((invti, i), maxset)] ++
    (if i < 9 then
      [((ti + 1, i), symmDiff minset {i, i + 1}),
       ((invti - 1, i), symmDiff maxset {10 - i, 10 - i - 1})]
     else [])))

/-- Dict lookup on the table: the last insertion for a key wins (as in a
Python dict), hence `find?` on the reversed entry list.  `none` models the
`KeyError` path. -/
def lookup (k : ℤ × ℕ) : Option (Finset ℕ) :=
  (lookupEntries.reverse.find? (fun e => e.1 == k)).map (fun e => e.2)

/-- `Cell.is_unique`: the candidate set has exactly one element. -/
def isUnique (c : Finset ℕ) : Bool := c.card == 1

/-- `Cell.unique_value`: the source asserts `is_unique` and returns the sole
element via `next(iter(...))`.  On singletons the sum of the elements is that
sole element, which gives a total executable definition agreeing with the
source wherever the source's assertion holds. -/
def uniqueValue (c : Finset ℕ) : ℕ := c.sum id

/-- The first stage of `constrain_cells_sum`: if the `lookup` table has the
key `(n, count)`, intersect every cell with the unique summand set
(`Cell.intersect` reports whether the cardinality changed); on `KeyError`
nothing happens. -/
def lookupStage (n : ℤ) (cells : List (Finset ℕ)) : Bool × List (Finset ℕ) :=
  match lookup (n, cells.length) with
  | some summands =>
    (cells.any (fun c => c.card != (c ∩ summands).card), cells.map (fun c => c ∩ summands))
  | none => (false, cells)

/-- `constrain_cells_sum(n, cells)` from the source.  The leading `assert`
is modelled by returning `none` (the raised `AssertionError`) when the bound
fails; otherwise both narrowing stages run and the changed flag is the `or`
of all the per-cell `Cell.intersect` results.  `int(...)` on the bound
computations truncates; on every input that passes the assertion the bounds
are nonnegative, so `Int.toNat` is exact there. -/
def constrain_cells_sum (n : ℤ) (cells : List (Finset ℕ)) :
    Option (Bool × List (Finset ℕ)) :=
  let count := cells.length
  if triangular count ≤ n ∧ n ≤ triangular_prime count then
    let step1 := lookupStage n cells
    let cellset_max : ℤ := if 1 < count then min (n - triangular ((count : ℤ) - 1)) 9 else n
    let cellset_min : ℤ := if 1 < count then max (n - triangular_prime ((count : ℤ) - 1)) 1 else n
    let allowed_range : Finset ℕ := Finset.Icc cellset_min.toNat cellset_max.toNat
    some (step1.1 || step1.2.any (fun c => c.card != (c ∩ allowed_range).card),
          step1.2.map (fun c => c ∩ allowed_range))
  else none

/-- `valid_combination`: all values pairwise distinct and within `1..9`. -/
def valid_combination (l : List ℕ) : Bool :=
  (l.dedup.length == l.length) && l.all (fun x => 1 ≤ x && x ≤ 9)

/-- A grid entry: a `Cell` with its candidate set, or a `Clue` with its
vertical and horizontal targets. -/
inductive Entry
  | cell (candidates : Finset ℕ)
  | clue (vertical horizontal : ℤ)
deriving DecidableEq

/-- The `Map`/`Kakuro` object: a flat row-major entry list with dimensions. -/
structure Kakuro where
  width : ℕ
  height : ℕ
  data : List Entry
deriving DecidableEq

def Entry.isCell : Entry → Bool
  | .cell _ => true
  | .clue _ _ => false

/-- Candidates of the entry at flat index `i` (an empty set off the list or
at a clue; all uses are at in-bounds cell positions). -/
def cellAt (data : List Entry) (i : ℕ) : Finset ℕ :=
  match data.getD i (Entry.cell ∅) with
  | .cell c => c
  | .clue _ _ => ∅

def isCellAt (data : List Entry) (i : ℕ) : Bool :=
  (data.getD i (Entry.cell ∅)).isCell

/-- CPython's `PySlice_AdjustIndices` normalisation of one slice bound:
negative values count from the end, then the value is clamped (for a
negative step the clamp range is `[-1, len-1]`, for a positive step it is
`[0, len]`). -/
def pyAdjustIdx (len : ℕ) (stepNeg : Bool) (i : ℤ) : ℤ :=
  let i1 := if i < 0 then i + len else i
  if i1 < 0 then (if stepNeg then -1 else 0)
  else if (len : ℤ) ≤ i1 then (if stepNeg then (len : ℤ) - 1 else len) else i1

/-- The index sequence of the Python slice `[start:stop:step]` over a list of
length `len`, following CPython's adjusted-bounds semantics. -/
def sliceIdx (len : ℕ) (start stop step : ℤ) : List ℤ :=
  if 0 < step then
    let s := pyAdjustIdx len false start
    let e := pyAdjustIdx len false stop
    if s < e then
      (List.range ((e - s - 1).toNat / step.toNat + 1)).map
        (fun j : ℕ => s + (j : ℤ) * step)
    else []
  else if step < 0 then
    let s := pyAdjustIdx len true start
    let e := pyAdjustIdx len true stop
    if e < s then
      (List.range ((s - e - 1).toNat / (-step).toNat + 1)).map
        (fun j : ℕ => s - (j : ℤ) * (-step))
    else []
  else []

/-- Flat indices visited by `Map.items_south_of`: `data[(row+1)*width+column::width]`. -/
def south_idx (g : Kakuro) (row col : ℕ) : List ℤ :=
  sliceIdx g.data.length (((row : ℤ) + 1) * g.width + col) g.data.length g.width

/-- Flat indices visited by `Map.items_north_of`:
`data[(row-1)*width+column:0:-width]`. -/
def north_idx (g : Kakuro) (row col : ℕ) : List ℤ :=
  sliceIdx g.data.length (((row : ℤ) - 1) * g.width + col) 0 (-(g.width : ℤ))

/-- Flat indices visited by `Map.items_west_of`:
`data[row*width+column-1:row*width-1:-1]`. -/
def west_idx (g : Kakuro) (row col : ℕ) : List ℤ :=
  sliceIdx g.data.length ((row : ℤ) * g.width + col - 1) ((row : ℤ) * g.width - 1) (-1)

/-- Flat indices visited by `Map.items_east_of`:
`data[row*width+column+1:(row+1)*width:1]`. -/
def east_idx (g : Kakuro) (row col : ℕ) : List ℤ :=
  sliceIdx g.data.length ((row : ℤ) * g.width + col + 1) (((row : ℤ) + 1) * g.width) 1

def entriesOf (g : Kakuro) (idx : List ℤ) : List Entry :=
  idx.map (fun i => g.data.getD i.toNat (Entry.cell ∅))

def items_south_of (g : Kakuro) (row col : ℕ) : List Entry := entriesOf g (south_idx g row col)
def items_north_of (g : Kakuro) (row col : ℕ) : List Entry := entriesOf g (north_idx g row col)
def items_west_of (g : Kakuro) (row col : ℕ) : List Entry := entriesOf g (west_idx g row col)
def items_east_of (g : Kakuro) (row col : ℕ) : List Entry := entriesOf g (east_idx g row col)

/-- `Cell.contiguous` composed with reading the candidate sets: the maximal
prefix of cell entries, as candidate sets. -/
def contiguousCells (items : List Entry) : List (Finset ℕ) :=
  (items.takeWhile Entry.isCell).map (fun e =>
    match e with
    | .cell c => c
    | .clue _ _ => ∅)

/-- `Kakuro.clues`: the `(row, column, vertical, horizontal)` quadruples of
the clue entries in flat-index order (`row = idx // width`,
`column = idx % width`). -/
def clues (g : Kakuro) : List (ℕ × ℕ × ℤ × ℤ) :=
  g.data.enum.filterMap (fun p =>
    match p.2 with
    | .clue v h => some (p.1 / g.width, p.1 % g.width, v, h)
    | .cell _ => none)

/-- `Kakuro.clues_for`: drop non-clue items going north resp. west and take
the next item of each; a `StopIteration` (an exhausted iterator) is `none`. -/
def clues_for (g : Kakuro) (row col : ℕ) : Option (Entry × Entry) :=
  let items_v := (items_north_of g row col).dropWhile (fun e => Entry.isCell e)
  let items_h := (items_west_of g row col).dropWhile (fun e => Entry.isCell e)
  match items_v.head?, items_h.head? with
  | some v, some h => some (v, h)
  | _, _ => none

/-- `Kakuro.is_solved`.  The first `all` is the loop returning `False` on a
non-unique cell; the second is the per-clue loop checking distinctness
(`len(set(...)) == len(...)`, here via `dedup`) and the two sum equations.
`uniqueValue` is exact because the second loop only runs once every cell is
unique. -/
def is_solved (g : Kakuro) : Bool :=
  (g.data.all (fun e =>
    match e with
    | .cell c => isUnique c
    | .clue _ _ => true)) &&
  ((clues g).all (fun rc =>
    let vne := (contiguousCells (items_south_of g rc.1 rc.2.1)).map uniqueValue
    let hne := (contiguousCells (items_east_of g rc.1 rc.2.1)).map uniqueValue
    (hne.dedup.length == hne.length) && (vne.dedup.length == vne.length) &&
    (rc.2.2.1 == (vne.sum : ℤ)) && (rc.2.2.2 == (hne.sum : ℤ))))

/-- Flat indices of the non-unique cells, in flat-index order — the
`pending_cells` of `Kakuro.crack` (the source walks `enumerate(self.data)`,
so the indices are exactly the positions below `len(data)` holding a cell
whose candidate set is not a singleton). -/
def pendingCellIdxs (g : Kakuro) : List ℕ :=
  (List.range g.data.length).filter (fun i =>
    isCellAt g.data i && !(isUnique (cellAt g.data i)))

/-- `itertools.product` over lists of choices, leftmost factor varying
slowest — the exact enumeration order of the source. -/
def cartesianProduct : List (List ℕ) → List (List ℕ)
  | [] => [[]]
  | l :: ls => l.flatMap (fun x => (cartesianProduct ls).map (fun p => x :: p))

/-- The trial-assignment loop of `Kakuro.crack`: write `{x}` into the cell
at each index in turn (`cell.candidates = {x}`). -/
def assignData : List Entry → List ℕ → List ℕ → List Entry
  | data, i :: is, x :: xs => assignData (data.set i (Entry.cell {x})) is xs
  | data, _, _ => data

/-- Write the single-digit assignment `combo` into the cells at `idxs`. -/
def assign (g : Kakuro) (idxs : List ℕ) (combo : List ℕ) : Kakuro :=
  ⟨g.width, g.height, assignData g.data idxs combo⟩

/-- The elements of a candidate set as an ascending list.  CPython iterates a
set of small nonnegative ints in ascending order (such ints hash to
themselves), which this models with an ascending enumeration. -/
def setToList (c : Finset ℕ) : List ℕ :=
  (List.range (c.sup id + 1)).filter (fun x => decide (x ∈ c))

/-- The combinations `Kakuro.crack` enumerates: the Cartesian product of the
pending cells' candidate sets. -/
def crackCombos (g : Kakuro) : List (List ℕ) :=
  cartesianProduct ((pendingCellIdxs g).map (fun i => setToList (cellAt g.data i)))

/-- `Kakuro.crack`.  After the trial loop the grid holds the last tried
combination (or is untouched when the product was empty); on success the
first solution found is committed on top of that state.  The returned `Bool`
is the source's return value. -/
def crack (g : Kakuro) : Bool × Kakuro :=
  let idxs := pendingCellIdxs g
  let combos := crackCombos g
  let afterLoop :=
    match combos.getLast? with
    | some last => assign g idxs last
    | none => g
  let solutions := combos.filter (fun c => is_solved (assign g idxs c))
  match solutions with
  | [] => (false, afterLoop)
  | s :: _ => (true, assign afterLoop idxs s)

/-- Reassemble a run after its pending (non-unique) cells have been narrowed:
unique positions keep their set, pending positions take the next narrowed set.
This mirrors the fact that the source mutates the pending cell objects in
place inside the strip. -/
def mergePending : List (Finset ℕ) → List (Finset ℕ) → List (Finset ℕ)
  | [], _ => []
  | c :: rest, np =>
    if isUnique c then c :: mergePending rest np
    else
      match np with
      | [] => c :: mergePending rest []
      | x :: xs => x :: mergePending rest xs

/-- The per-direction body of `Kakuro.discard_from_uniques`, for a direction
with nonzero clue target `n` and contiguous strip `strip`: partition into
pending and uniques, collect the resolved digits (`assert` that they are
pairwise distinct — `none` on failure), subtract them from every pending
cell, and if the residual target is nonzero run `constrain_cells_sum` on the
subtracted pending cells. -/
def processRunA (n : ℤ) (strip : List (Finset ℕ)) : Option (Bool × List (Finset ℕ)) :=
  let pending := strip.filter (fun c => !(isUnique c))
  let uniques := strip.filter (fun c => isUnique c)
  let substract_set : Finset ℕ := (uniques.map uniqueValue).toFinset
  if substract_set.card = uniques.length then
    let changed0 := pending.any (fun p => p.card != (p \ substract_set).card)
    let pending1 := pending.map (fun p => p \ substract_set)
    let n1 : ℤ := n - (substract_set.sum id : ℕ)
    if n1 ≠ 0 then
      (constrain_cells_sum n1 pending1).map
        (fun r => (changed0 || r.1, mergePending strip r.2))
    else some (changed0, mergePending strip pending1)
  else none

/-- One pending cell's narrowing inside `Kakuro.discard_from_single_clues`:
keep exactly the digits `x` for which some assignment from the other pending
cells' current candidate sets is a valid combination together with `x` and
meets the residual target `n`. -/
def passBKeep (n : ℤ) (sets : List (Finset ℕ)) (k : ℕ) : Finset ℕ :=
  let c := sets.getD k ∅
  let others := (sets.enum.filter (fun p => p.1 != k)).map (fun p => p.2)
  let combos := cartesianProduct (others.map setToList)
  c.filter (fun x => combos.any (fun p =>
    valid_combination (x :: p) && (n == ((p.sum + x : ℕ) : ℤ))))

def passBStep (n : ℤ) (sets : List (Finset ℕ)) (k : ℕ) : Bool × List (Finset ℕ) :=
  ((sets.getD k ∅).card != (passBKeep n sets k).card, sets.set k (passBKeep n sets k))

/-- The inner `for cell in pending` loop of
`Kakuro.discard_from_single_clues`, sequentially over the pending cells
(Python iterates the `pending` set in an unspecified order; the narrowing and
its changed flag are modelled in strip order — each step sees the previous
steps' narrowings, as the source's in-place mutation does). -/
def passBFoldAux (n : ℤ) : List ℕ → Bool × List (Finset ℕ) → Bool × List (Finset ℕ)
  | [], acc => acc
  | k :: ks, acc =>
    let st := passBStep n acc.2 k
    passBFoldAux n ks (acc.1 || st.1, st.2)

/-- The per-direction body of `Kakuro.discard_from_single_clues` for a
direction with nonzero clue target `n`: compute the residual target, check
the assertion `len(pending) > 0 and n > 0 or len(pending) == 0 and n == 0`
(`none` models the `AssertionError`), then narrow each pending cell. -/
def processRunB (n : ℤ) (strip : List (Finset ℕ)) : Option (Bool × List (Finset ℕ)) :=
  let pending := strip.filter (fun c => !(isUnique c))
  let uniques := strip.filter (fun c => isUnique c)
  let n1 : ℤ := n - ((uniques.map uniqueValue).sum : ℕ)
  if (0 < pending.length ∧ 0 < n1) ∨ (pending.length = 0 ∧ n1 = 0) then
    if n1 = 0 then some (false, strip)
    else
      let r := passBFoldAux n1 (List.range pending.length) (false, pending)
      some (r.1, mergePending strip r.2)
  else none

/-- Write the narrowed candidate sets back into the grid at the given flat
indices (the source mutates the cell objects; here the entry list is updated
at the cells' positions). -/
def writeCells : List Entry → List ℕ → List (Finset ℕ) → List Entry
  | data, _, [] => data
  | data, [], _ => data
  | data, i :: is, v :: vs => writeCells (data.set i (Entry.cell v)) is vs

/-- Process one direction of one clue: skip when the clue target is `0`
(`continue` in the source), otherwise extract the contiguous cell strip along
the given slice indices, process it, and write the result back. -/
def runDirWith (proc : ℤ → List (Finset ℕ) → Option (Bool × List (Finset ℕ)))
    (data : List Entry) (n : ℤ) (slice : List ℤ) : Option (Bool × List Entry) :=
  if n = 0 then some (false, data)
  else
    let idxs := (slice.map Int.toNat).takeWhile (fun i => isCellAt data i)
    let strip := idxs.map (fun i => cellAt data i)
    (proc n strip).map (fun r => (r.1, writeCells data idxs r.2))

/-- Flat indices of the clue entries, in flat-index order (the iteration
order of `Kakuro.clues`). -/
def clueIdxs (data : List Entry) : List ℕ :=
  (List.range data.length).filter (fun i => !(isCellAt data i))

def clueVertAt (data : List Entry) (i : ℕ) : ℤ :=
  match data.getD i (Entry.cell ∅) with
  | .clue v _ => v
  | .cell _ => 0

def clueHorizAt (data : List Entry) (i : ℕ) : ℤ :=
  match data.getD i (Entry.cell ∅) with
  | .clue _ h => h
  | .cell _ => 0

/-- The common shape of both propagation passes: for each clue (in flat-index
order) process the vertical direction (run going south) and then the
horizontal one (run going east), threading the grid state and or-ing the
changed flags; a failed assertion anywhere (`none`) aborts the pass, as the
raised `AssertionError` does in the source. -/
def passAux (proc : ℤ → List (Finset ℕ) → Option (Bool × List (Finset ℕ)))
    (w len : ℕ) : List ℕ → List Entry → Option (Bool × List Entry)
  | [], data => some (false, data)
  | idx :: rest, data =>
    let row := idx / w
    let col := idx % w
    (runDirWith proc data (clueVertAt data idx)
        (sliceIdx len (((row : ℤ) + 1) * w + col) len w)).bind (fun r1 =>
      (runDirWith proc r1.2 (clueHorizAt r1.2 idx)
          (sliceIdx len ((row : ℤ) * w + col + 1) (((row : ℤ) + 1) * w) 1)).bind (fun r2 =>
        (passAux proc w len rest r2.2).map (fun rR =>
          (r1.1 || r2.1 || rR.1, rR.2))))

/-- `Kakuro.discard_from_uniques` (propagation Pass A). -/
def discard_from_uniques (g : Kakuro) : Option (Bool × Kakuro) :=
  (passAux processRunA g.width g.data.length (clueIdxs g.data) g.data).map
    (fun p => (p.1, ⟨g.width, g.height, p.2⟩))

/-- `Kakuro.discard_from_single_clues` (propagation Pass B). -/
def discard_from_single_clues (g : Kakuro) : Option (Bool × Kakuro) :=
  (passAux processRunB g.width g.data.length (clueIdxs g.data) g.data).map
    (fun p => (p.1, ⟨g.width, g.height, p.2⟩))

/-! ### Named pieces of the per-run processing and of the claims -/

/-- The pending (non-unique) cells of a strip (`partition`'s second half). -/
def pendingOf (strip : List (Finset ℕ)) : List (Finset ℕ) :=
  strip.filter (fun c => !(isUnique c))

/-- The resolved (unique) cells of a strip (`partition`'s first half). -/
def uniquesOf (strip : List (Finset ℕ)) : List (Finset ℕ) :=
  strip.filter (fun c => isUnique c)

/-- The `substract_set` of Pass A: the set of resolved digits of a run. -/
def substractSetOf (strip : List (Finset ℕ)) : Finset ℕ :=
  ((uniquesOf strip).map uniqueValue).toFinset

/-- Pass A's residual target: `n -= sum(substract_set)`. -/
def residualA (n : ℤ) (strip : List (Finset ℕ)) : ℤ :=
  n - ((substractSetOf strip).sum id : ℕ)

/-- Pass B's residual target: `n -= sum(u.unique_value() for u in uniques)`
(a sum over the list of resolved cells, not over the deduplicated set). -/
def residualB (n : ℤ) (strip : List (Finset ℕ)) : ℤ :=
  n - (((uniquesOf strip).map uniqueValue).sum : ℕ)

/-- `entryLe e' e`: entry `e'` is the result of only shrinking `e` — a cell
whose candidate set is a subset of `e`'s, or a clue with identical targets.
Mixed kinds are excluded. -/
def entryLe : Entry → Entry → Prop
  | .cell c', .cell c => c' ⊆ c
  | .clue v' h', .clue v h => v' = v ∧ h' = h
  | _, _ => False

/-- The keys the combinatorics table is claimed to contain, and no others:
the length-1 entries, the extremal entries for every length, and the
near-extremal entries for lengths 2..8. -/
@[reducible] def keyListed (S : ℤ) (L : ℕ) : Prop :=
  (L = 1 ∧ 1 ≤ S ∧ S ≤ 9) ∨
  (2 ≤ L ∧ L ≤ 9 ∧ (S = triangular (L : ℤ) ∨ S = triangular_prime (L : ℤ))) ∨
  (2 ≤ L ∧ L ≤ 8 ∧ (S = triangular (L : ℤ) + 1 ∨ S = triangular_prime (L : ℤ) - 1))

/-- "Every cell holds exactly one candidate digit" as a per-entry predicate
(clues impose nothing). -/
def entryUnique : Entry → Prop
  | .cell c => c.card = 1
  | .clue _ _ => True

instance entryUnique.instDecidable (e : Entry) : Decidable (entryUnique e) :=
  match e with
  | .cell c => inferInstanceAs (Decidable (c.card = 1))
  | .clue _ _ => inferInstanceAs (Decidable True)

/-- The solved-grid property exactly as claim C3 words it: every cell
resolved, and for every clue the contiguous run **in each nonzero
direction** has pairwise-distinct resolved values summing to that
direction's target. -/
def claimSolved (g : Kakuro) : Prop :=
  (∀ e ∈ g.data, entryUnique e) ∧
  ∀ rc ∈ clues g,
    (rc.2.2.1 ≠ 0 →
      ((contiguousCells (items_south_of g rc.1 rc.2.1)).map uniqueValue).Nodup ∧
      rc.2.2.1 =
        (((contiguousCells (items_south_of g rc.1 rc.2.1)).map uniqueValue).sum : ℤ)) ∧
    (rc.2.2.2 ≠ 0 →
      ((contiguousCells (items_east_of g rc.1 rc.2.1)).map uniqueValue).Nodup ∧
      rc.2.2.2 =
        (((contiguousCells (items_east_of g rc.1 rc.2.1)).map uniqueValue).sum : ℤ))

/-- The solved-grid property the code actually checks: every cell resolved,
and for every clue **both** directional runs (including those with target 0)
have pairwise-distinct resolved values summing to the respective target. -/
def amendedSolved (g : Kakuro) : Prop :=
  (∀ e ∈ g.data, entryUnique e) ∧
  ∀ rc ∈ clues g,
    ((contiguousCells (items_south_of g rc.1 rc.2.1)).map uniqueValue).Nodup ∧
    ((contiguousCells (items_east_of g rc.1 rc.2.1)).map uniqueValue).Nodup ∧
    rc.2.2.1 =
      (((contiguousCells (items_south_of g rc.1 rc.2.1)).map uniqueValue).sum : ℤ) ∧
    rc.2.2.2 =
      (((contiguousCells (items_east_of g rc.1 rc.2.1)).map uniqueValue).sum : ℤ)

/-! ### Helper lemmas: pointwise shrinking of candidate-set lists -/

/-- `Cell.substract`/`Cell.intersect` report a change exactly when the new,
smaller set differs from the old one. -/
lemma card_bne_iff_ne (c keep : Finset ℕ) (h : keep ⊆ c) :
    ((c.card != keep.card) = true) ↔ keep ≠ c := by
  rw [bne_iff_ne]
  constructor
  · intro hne heq
    exact hne (by rw [heq])
  · intro hne hcard
    exact hne (Finset.eq_of_subset_of_card_le h (le_of_eq hcard))

lemma map_eq_self_list {α} (l : List α) (f : α → α) :
    l.map f = l ↔ ∀ x ∈ l, f x = x := by
  induction l with
  | nil => simp
  | cons a t ih => simp [ih]

/-- The or-accumulated per-cell change flag of a one-stage narrowing is true
iff the stage changed the list at all. -/
lemma any_card_iff_map_ne (l : List (Finset ℕ)) (f : Finset ℕ → Finset ℕ)
    (hf : ∀ c, f c ⊆ c) :
    ((l.any (fun c => c.card != (f c).card)) = true) ↔ l.map f ≠ l := by
  rw [List.any_eq_true, Ne, map_eq_self_list]
  constructor
  · rintro ⟨c, hc, hb⟩ hall
    exact ((card_bne_iff_ne c (f c) (hf c)).mp hb) (hall c hc)
  · intro h
    by_contra hno
    push_neg at hno
    refine h (fun x hx => ?_)
    have := hno x hx
    by_contra hne
    exact this ((card_bne_iff_ne x (f x) (hf x)).mpr hne)

lemma forall2_sub_refl (l : List (Finset ℕ)) : List.Forall₂ (fun a b => a ⊆ b) l l := by
  induction l with
  | nil => exact List.Forall₂.nil
  | cons a t ih => exact List.Forall₂.cons (by rfl) ih

lemma forall2_sub_trans {a b c : List (Finset ℕ)}
    (h1 : List.Forall₂ (fun a b => a ⊆ b) a b)
    (h2 : List.Forall₂ (fun a b => a ⊆ b) b c) :
    List.Forall₂ (fun a b => a ⊆ b) a c := by
  induction h1 generalizing c with
  | nil => cases h2; exact List.Forall₂.nil
  | cons hab htl ih =>
    cases h2 with
    | cons hbc htl2 => exact List.Forall₂.cons (hab.trans hbc) (ih htl2)

lemma forall2_sub_map (l : List (Finset ℕ)) (f : Finset ℕ → Finset ℕ)
    (hf : ∀ c, f c ⊆ c) : List.Forall₂ (fun a b => a ⊆ b) (l.map f) l := by
  induction l with
  | nil => exact List.Forall₂.nil
  | cons a t ih => exact List.Forall₂.cons (hf a) ih

/-- Generic squeeze: along a chain `c ≤ b ≤ a` of pointwise related lists
(for a relation where `z ≤ y ≤ x` and `z = x` force `y = x`), `c = a`
forces `b = a`. -/
lemma forall2_squeeze {α} (R : α → α → Prop)
    (hR : ∀ x y z, R z y → R y x → z = x → y = x) :
    ∀ {a b c : List α}, List.Forall₂ R b a → List.Forall₂ R c b → c = a → b = a := by
  intro a b c h1 h2 hca
  subst hca
  induction h1 with
  | nil => rfl
  | @cons y x bs as hyx htl ih =>
    cases h2 with
    | cons hxy htl2 =>
      have hy : y = x := hR x y x hxy hyx rfl
      have hbs : bs = as := ih htl2
      rw [hy, hbs]

lemma forall2_chain_ne {α} (R : α → α → Prop)
    (hR : ∀ x y z, R z y → R y x → z = x → y = x)
    {a b c : List α} (h1 : List.Forall₂ R b a) (h2 : List.Forall₂ R c b) :
    c ≠ a ↔ (b ≠ a ∨ c ≠ b) := by
  constructor
  · intro hne
    by_contra hno
    push_neg at hno
    exact hne (hno.2.trans hno.1)
  · intro h hca
    have hb : b = a := forall2_squeeze R hR h1 h2 hca
    rcases h with h | h
    · exact h hb
    · exact h (hca.trans hb.symm)

lemma finset_squeeze (x y z : Finset ℕ) (hzy : z ⊆ y) (hyx : y ⊆ x) (hzx : z = x) :
    y = x := Finset.Subset.antisymm hyx (hzx ▸ hzy)

lemma sub_chain_ne_iff {a b c : List (Finset ℕ)}
    (h1 : List.Forall₂ (fun a b => a ⊆ b) b a)
    (h2 : List.Forall₂ (fun a b => a ⊆ b) c b) :
    c ≠ a ↔ (b ≠ a ∨ c ≠ b) :=
  forall2_chain_ne (fun a b => a ⊆ b) finset_squeeze h1 h2

lemma mergePending_length (strip : List (Finset ℕ)) :
    ∀ np, (mergePending strip np).length = strip.length := by
  induction strip with
  | nil => intro np; rfl
  | cons c rest ih =>
    intro np
    simp only [mergePending]
    split
    · simp [ih]
    · cases np with
      | nil => simp [ih]
      | cons x xs => simp [ih]

/-- Writing the unchanged pending cells back into a strip reproduces the
strip. -/
lemma mergePending_self (strip : List (Finset ℕ)) :
    mergePending strip (strip.filter (fun c => !(isUnique c))) = strip := by
  induction strip with
  | nil => rfl
  | cons c rest ih =>
    cases hu : isUnique c with
    | true => simp [mergePending, List.filter_cons, hu, ih]
    | false => simp [mergePending, List.filter_cons, hu, ih]

lemma mergePending_sub (strip : List (Finset ℕ)) :
    ∀ np, List.Forall₂ (fun a b => a ⊆ b) np (strip.filter (fun c => !(isUnique c))) →
    List.Forall₂ (fun a b => a ⊆ b) (mergePending strip np) strip := by
  induction strip with
  | nil => intro np _; exact List.Forall₂.nil
  | cons c rest ih =>
    intro np h
    cases hu : isUnique c with
    | true =>
      rw [List.filter_cons] at h
      rw [hu] at h
      simp only [Bool.not_true, Bool.false_eq_true, if_false] at h
      simp only [mergePending, hu, if_true]
      exact List.Forall₂.cons (by rfl) (ih np h)
    | false =>
      rw [List.filter_cons] at h
      rw [hu] at h
      simp only [Bool.not_false, if_true] at h
      cases h with
      | cons hx htl =>
        simp only [mergePending, hu, Bool.false_eq_true, if_false]
        exact List.Forall₂.cons hx (ih _ htl)

lemma mergePending_eq_iff (strip : List (Finset ℕ)) :
    ∀ np, np.length = (strip.filter (fun c => !(isUnique c))).length →
    (mergePending strip np = strip ↔ np = strip.filter (fun c => !(isUnique c))) := by
  induction strip with
  | nil =>
    intro np hlen
    simp only [List.filter_nil, List.length_nil] at hlen
    simp [mergePending, List.length_eq_zero.mp hlen]
  | cons c rest ih =>
    intro np hlen
    cases hu : isUnique c with
    | true =>
      rw [List.filter_cons] at hlen ⊢
      rw [hu] at hlen ⊢
      simp only [Bool.not_true, Bool.false_eq_true, if_false] at hlen ⊢
      simp only [mergePending, hu, if_true, List.cons.injEq, true_and]
      exact ih np hlen
    | false =>
      rw [List.filter_cons] at hlen ⊢
      rw [hu] at hlen ⊢
      simp only [Bool.not_false, if_true] at hlen ⊢
      cases np with
      | nil => simp at hlen
      | cons x xs =>
        simp only [List.length_cons, Nat.succ.injEq] at hlen
        simp only [mergePending, hu, Bool.false_eq_true, if_false, List.cons.injEq]
        constructor
        · rintro ⟨hx, hm⟩
          exact ⟨hx, (ih xs hlen).mp hm⟩
        · rintro ⟨hx, hm⟩
          exact ⟨hx, (ih xs hlen).mpr hm⟩

/-- For a pointwise-shrunk list, differing from the original is the same as
some position having strictly shrunk. -/
lemma sub_ne_iff_exists_ssub {l' l : List (Finset ℕ)}
    (h : List.Forall₂ (fun a b => a ⊆ b) l' l) :
    l' ≠ l ↔ ∃ i, l'.getD i ∅ ⊂ l.getD i ∅ := by
  induction h with
  | nil =>
    constructor
    · intro hne; exact absurd rfl hne
    · rintro ⟨i, hi⟩
      simp only [List.getD_nil] at hi
      exact absurd hi (by simp)
  | @cons a b l'' l hab htl ih =>
    constructor
    · intro hne
      rcases (by
        by_contra hno
        push_neg at hno
        exact hne (by rw [hno.1, hno.2]) : a ≠ b ∨ l'' ≠ l) with hh | hh
      · exact ⟨0, ssubset_of_subset_of_ne hab hh⟩
      · obtain ⟨i, hi⟩ := ih.mp hh
        exact ⟨i + 1, by simpa using hi⟩
    · rintro ⟨i, hi⟩ heq
      have h1 : a = b := (List.cons.injEq ..).mp heq |>.1
      have h2 : l'' = l := (List.cons.injEq ..).mp heq |>.2
      cases i with
      | zero => simp only [List.getD_cons_zero] at hi; exact hi.ne h1
      | succ i =>
        simp only [List.getD_cons_succ] at hi
        exact (ih.mpr ⟨i, hi⟩) h2

/-! ### The grid-entry order: candidate sets shrink, clues and kinds are fixed -/

lemma entryLe_refl (e : Entry) : entryLe e e := by
  cases e with
  | cell c => exact Finset.Subset.refl c
  | clue v h => exact ⟨rfl, rfl⟩

lemma entryLe_trans {a b c : Entry} (h1 : entryLe a b) (h2 : entryLe b c) :
    entryLe a c := by
  cases a <;> cases b <;> cases c <;> simp only [entryLe] at *
  · exact h1.trans h2
  · exact ⟨h1.1.trans h2.1, h1.2.trans h2.2⟩

lemma entryLe_squeeze (x y z : Entry) (hzy : entryLe z y) (hyx : entryLe y x)
    (hzx : z = x) : y = x := by
  subst hzx
  cases z <;> cases y <;> simp only [entryLe] at *
  · exact congrArg Entry.cell (Finset.Subset.antisymm hyx hzy)
  · rw [hyx.1, hyx.2]

lemma forall2_entryLe_refl (l : List Entry) : List.Forall₂ entryLe l l := by
  induction l with
  | nil => exact List.Forall₂.nil
  | cons a t ih => exact List.Forall₂.cons (entryLe_refl a) ih

lemma forall2_entryLe_trans {a b c : List Entry}
    (h1 : List.Forall₂ entryLe a b) (h2 : List.Forall₂ entryLe b c) :
    List.Forall₂ entryLe a c := by
  induction h1 generalizing c with
  | nil => cases h2; exact List.Forall₂.nil
  | cons hab htl ih =>
    cases h2 with
    | cons hbc htl2 => exact List.Forall₂.cons (entryLe_trans hab hbc) (ih htl2)

lemma entry_chain_ne_iff {a b c : List Entry} (h1 : List.Forall₂ entryLe b a)
    (h2 : List.Forall₂ entryLe c b) : c ≠ a ↔ (b ≠ a ∨ c ≠ b) :=
  forall2_chain_ne entryLe entryLe_squeeze h1 h2

/-- For pointwise-shrunk grid data, differing from the original is the same
as some cell's candidate set having strictly shrunk. -/
lemma entry_ne_iff_exists_ssub {d' d : List Entry}
    (h : List.Forall₂ entryLe d' d) :
    d' ≠ d ↔ ∃ i c' c, d'.getD i (Entry.cell ∅) = Entry.cell c' ∧
      d.getD i (Entry.cell ∅) = Entry.cell c ∧ c' ⊂ c := by
  induction h with
  | nil =>
    constructor
    · intro hne; exact absurd rfl hne
    · rintro ⟨i, c', c, h1, h2, h3⟩
      simp only [List.getD_nil] at h1 h2
      cases h1; cases h2
      exact absurd h3 (by simp)
  | @cons a b l'' l hab htl ih =>
    constructor
    · intro hne
      rcases (by
        by_contra hno
        push_neg at hno
        exact hne (by rw [hno.1, hno.2]) : a ≠ b ∨ l'' ≠ l) with hh | hh
      · cases a with
        | cell ca =>
          cases b with
          | cell cb =>
            refine ⟨0, ca, cb, rfl, rfl, ssubset_of_subset_of_ne hab ?_⟩
            intro hcc; exact hh (by rw [hcc])
          | clue v hh2 => exact absurd hab (by simp [entryLe])
        | clue va hra =>
          cases b with
          | cell cb => exact absurd hab (by simp [entryLe])
          | clue vb hrb =>
            simp only [entryLe] at hab
            exact absurd (by rw [hab.1, hab.2] :
              Entry.clue va hra = Entry.clue vb hrb) hh
      · obtain ⟨i, c', c, h1, h2, h3⟩ := ih.mp hh
        exact ⟨i + 1, c', c, by simpa using h1, by simpa using h2, h3⟩
    · rintro ⟨i, c', c, h1, h2, h3⟩ heq
      have hhd : a = b := (List.cons.injEq ..).mp heq |>.1
      have htl2 : l'' = l := (List.cons.injEq ..).mp heq |>.2
      cases i with
      | zero =>
        simp only [List.getD_cons_zero] at h1 h2
        rw [hhd, h2] at h1
        exact h3.ne (Entry.cell.inj h1).symm
      | succ i =>
        simp only [List.getD_cons_succ] at h1 h2
        exact (ih.mpr ⟨i, c', c, h1, h2, h3⟩) htl2

/-! ### Shrinking specifications of the narrowing operations -/

lemma lookupStage_spec (n : ℤ) (cells : List (Finset ℕ)) :
    (lookupStage n cells).2.length = cells.length ∧
    List.Forall₂ (fun a b => a ⊆ b) (lookupStage n cells).2 cells ∧
    ((lookupStage n cells).1 = true ↔ (lookupStage n cells).2 ≠ cells) := by
  unfold lookupStage
  cases lookup (n, cells.length) with
  | none => exact ⟨rfl, forall2_sub_refl cells, by simp⟩
  | some s =>
    refine ⟨by simp, forall2_sub_map _ _ (fun c => Finset.inter_subset_left), ?_⟩
    exact any_card_iff_map_ne cells (fun c => c ∩ s) (fun c => Finset.inter_subset_left)

lemma constrain_cells_sum_spec {n : ℤ} {cells : List (Finset ℕ)} {ch : Bool}
    {cells' : List (Finset ℕ)}
    (h : constrain_cells_sum n cells = some (ch, cells')) :
    cells'.length = cells.length ∧
    List.Forall₂ (fun a b => a ⊆ b) cells' cells ∧
    (ch = true ↔ cells' ≠ cells) := by
  simp only [constrain_cells_sum] at h
  by_cases hb : triangular cells.length ≤ n ∧ n ≤ triangular_prime cells.length
  · rw [if_pos hb] at h
    obtain ⟨hch, hc2⟩ := Prod.ext_iff.mp (Option.some.inj h)
    obtain ⟨hL1, hL2, hL3⟩ := lookupStage_spec n cells
    subst hch
    subst hc2
    refine ⟨by simp [hL1], forall2_sub_trans
      (forall2_sub_map _ _ (fun c => Finset.inter_subset_left)) hL2, ?_⟩
    simp only [Bool.or_eq_true]
    rw [hL3, any_card_iff_map_ne _ _ (fun c => Finset.inter_subset_left)]
    exact (sub_chain_ne_iff hL2
      (forall2_sub_map _ _ (fun c => Finset.inter_subset_left))).symm
  · rw [if_neg hb] at h
    exact absurd h (by simp)

lemma processRunA_spec {n : ℤ} {strip : List (Finset ℕ)} {ch : Bool}
    {strip' : List (Finset ℕ)}
    (h : processRunA n strip = some (ch, strip')) :
    strip'.length = strip.length ∧
    List.Forall₂ (fun a b => a ⊆ b) strip' strip ∧
    (ch = true ↔ strip' ≠ strip) := by
  simp only [processRunA] at h
  set pending := strip.filter (fun c => !(isUnique c)) with hpend
  set S := ((strip.filter (fun c => isUnique c)).map uniqueValue).toFinset with hS
  by_cases ha : S.card = (strip.filter (fun c => isUnique c)).length
  · rw [if_pos ha] at h
    set pending1 := pending.map (fun p => p \ S) with hp1
    have hp1sub : List.Forall₂ (fun a b => a ⊆ b) pending1 pending :=
      forall2_sub_map _ _ (fun c => Finset.sdiff_subset)
    have hp1len : pending1.length = pending.length := by simp [hp1]
    have hch0 : (pending.any (fun p => p.card != (p \ S).card) = true) ↔
        pending1 ≠ pending :=
      any_card_iff_map_ne _ _ (fun c => Finset.sdiff_subset)
    by_cases hn : n - ((S.sum id : ℕ) : ℤ) ≠ 0
    · rw [if_pos hn] at h
      cases hc : constrain_cells_sum (n - ((S.sum id : ℕ) : ℤ)) pending1 with
      | none => rw [hc] at h; exact absurd h (by simp)
      | some r =>
        rw [hc] at h
        simp only [Option.map_some'] at h
        obtain ⟨hchv, hsv⟩ := Prod.ext_iff.mp (Option.some.inj h)
        obtain ⟨hC1, hC2, hC3⟩ := constrain_cells_sum_spec hc
        subst hchv
        subst hsv
        have hr2p : List.Forall₂ (fun a b => a ⊆ b) r.2 pending :=
          forall2_sub_trans hC2 hp1sub
        have hr2len : r.2.length = pending.length := hC1.trans hp1len
        refine ⟨mergePending_length strip r.2,
          mergePending_sub strip r.2 hr2p, ?_⟩
        simp only [Bool.or_eq_true]
        rw [hch0, hC3, ← sub_chain_ne_iff hp1sub hC2]
        exact (not_iff_not.mpr (mergePending_eq_iff strip r.2 hr2len)).symm
    · rw [if_neg hn] at h
      obtain ⟨hchv, hsv⟩ := Prod.ext_iff.mp (Option.some.inj h)
      subst hchv
      subst hsv
      refine ⟨mergePending_length strip pending1,
        mergePending_sub strip pending1 hp1sub, ?_⟩
      rw [hch0]
      exact (not_iff_not.mpr (mergePending_eq_iff strip pending1 hp1len)).symm
  · rw [if_neg ha] at h
    exact absurd h (by simp)

/-! ### List.set helper lemmas -/

lemma getD_set_self {α} (l : List α) (i : ℕ) (a d : α) (h : i < l.length) :
    (l.set i a).getD i d = a := by
  induction l generalizing i with
  | nil => simp at h
  | cons x t ih =>
    cases i with
    | zero => rfl
    | succ i => exact ih i (by simpa using h)

lemma getD_set_ne {α} (l : List α) (i j : ℕ) (a d : α) (h : i ≠ j) :
    (l.set i a).getD j d = l.getD j d := by
  induction l generalizing i j with
  | nil => simp [List.set]
  | cons x t ih =>
    cases i with
    | zero =>
      cases j with
      | zero => exact absurd rfl h
      | succ j => rfl
    | succ i =>
      cases j with
      | zero => rfl
      | succ j => exact ih i j (fun he => h (by rw [he]))

lemma set_getD_self {α} (l : List α) (i : ℕ) (d : α) :
    l.set i (l.getD i d) = l := by
  induction l generalizing i with
  | nil => rfl
  | cons x t ih =>
    cases i with
    | zero => rfl
    | succ i => simp only [List.set, List.getD_cons_succ]; rw [ih]

lemma set_of_length_le {α} (l : List α) (i : ℕ) (a : α) (h : l.length ≤ i) :
    l.set i a = l := by
  induction l generalizing i with
  | nil => rfl
  | cons x t ih =>
    cases i with
    | zero => simp at h
    | succ i => simp only [List.set]; rw [ih i (by simpa using h)]

lemma getD_of_length_le {α} (l : List α) (i : ℕ) (d : α) (h : l.length ≤ i) :
    l.getD i d = d := by
  induction l generalizing i with
  | nil => rfl
  | cons x t ih =>
    cases i with
    | zero => simp at h
    | succ i => exact ih i (by simpa using h)

lemma set_forall2_sub (sets : List (Finset ℕ)) (k : ℕ) (keep : Finset ℕ)
    (h : keep ⊆ sets.getD k ∅) :
    List.Forall₂ (fun a b => a ⊆ b) (sets.set k keep) sets := by
  induction sets generalizing k with
  | nil => exact List.Forall₂.nil
  | cons x t ih =>
    cases k with
    | zero => exact List.Forall₂.cons h (forall2_sub_refl t)
    | succ k => exact List.Forall₂.cons (by rfl) (ih k h)

lemma set_ne_iff (sets : List (Finset ℕ)) (k : ℕ) (keep : Finset ℕ)
    (hk : k < sets.length) :
    (sets.set k keep ≠ sets) ↔ keep ≠ sets.getD k ∅ := by
  constructor
  · intro hne heq
    exact hne (heq ▸ set_getD_self sets k ∅)
  · intro hne heq
    exact hne (by rw [← getD_set_self sets k keep ∅ hk, heq])

/-! ### Pass B inner loop specification -/

lemma passBStep_spec (n : ℤ) (sets : List (Finset ℕ)) (k : ℕ) :
    (passBStep n sets k).2.length = sets.length ∧
    List.Forall₂ (fun a b => a ⊆ b) (passBStep n sets k).2 sets ∧
    ((passBStep n sets k).1 = true ↔ (passBStep n sets k).2 ≠ sets) := by
  have hsub : passBKeep n sets k ⊆ sets.getD k ∅ := by
    simp only [passBKeep]
    exact Finset.filter_subset _ _
  simp only [passBStep]
  refine ⟨by simp, set_forall2_sub sets k _ hsub, ?_⟩
  by_cases hk : k < sets.length
  · rw [card_bne_iff_ne _ _ hsub, set_ne_iff sets k _ hk]
  · have h1 : sets.getD k ∅ = ∅ := getD_of_length_le sets k ∅ (le_of_not_lt hk)
    have h2 : passBKeep n sets k = sets.getD k ∅ := by
      simp only [passBKeep, h1]
      exact Finset.filter_empty _
    have h3 : sets.set k (passBKeep n sets k) = sets :=
      set_of_length_le sets k _ (le_of_not_lt hk)
    rw [card_bne_iff_ne _ _ hsub, h3]
    simp [h2]

lemma passBFoldAux_spec (n : ℤ) (sets0 : List (Finset ℕ)) :
    ∀ (ks : List ℕ) (acc : Bool × List (Finset ℕ)),
    acc.2.length = sets0.length →
    List.Forall₂ (fun a b => a ⊆ b) acc.2 sets0 →
    (acc.1 = true ↔ acc.2 ≠ sets0) →
    (passBFoldAux n ks acc).2.length = sets0.length ∧
    List.Forall₂ (fun a b => a ⊆ b) (passBFoldAux n ks acc).2 sets0 ∧
    ((passBFoldAux n ks acc).1 = true ↔ (passBFoldAux n ks acc).2 ≠ sets0) := by
  intro ks
  induction ks with
  | nil => intro acc h1 h2 h3; exact ⟨h1, h2, h3⟩
  | cons k kt ih =>
    intro acc h1 h2 h3
    simp only [passBFoldAux]
    obtain ⟨hs1, hs2, hs3⟩ := passBStep_spec n acc.2 k
    refine ih _ (hs1.trans h1) (forall2_sub_trans hs2 h2) ?_
    simp only [Bool.or_eq_true]
    rw [h3, hs3]
    exact (sub_chain_ne_iff h2 hs2).symm

lemma processRunB_spec {n : ℤ} {strip : List (Finset ℕ)} {ch : Bool}
    {strip' : List (Finset ℕ)}
    (h : processRunB n strip = some (ch, strip')) :
    strip'.length = strip.length ∧
    List.Forall₂ (fun a b => a ⊆ b) strip' strip ∧
    (ch = true ↔ strip' ≠ strip) := by
  simp only [processRunB] at h
  set pending := strip.filter (fun c => !(isUnique c)) with hpend
  set n1 : ℤ := n - (((strip.filter (fun c => isUnique c)).map uniqueValue).sum : ℕ)
    with hn1
  by_cases hb : (0 < pending.length ∧ 0 < n1) ∨ (pending.length = 0 ∧ n1 = 0)
  · rw [if_pos hb] at h
    by_cases hz : n1 = 0
    · rw [if_pos hz] at h
      obtain ⟨hchv, hsv⟩ := Prod.ext_iff.mp (Option.some.inj h)
      subst hchv
      subst hsv
      exact ⟨rfl, forall2_sub_refl strip, by simp⟩
    · rw [if_neg hz] at h
      obtain ⟨hchv, hsv⟩ := Prod.ext_iff.mp (Option.some.inj h)
      obtain ⟨hf1, hf2, hf3⟩ := passBFoldAux_spec n1 pending
        (List.range pending.length) (false, pending) rfl
        (forall2_sub_refl pending) (by simp)
      subst hchv
      subst hsv
      refine ⟨mergePending_length strip _, mergePending_sub strip _ hf2, ?_⟩
      rw [hf3]
      exact (not_iff_not.mpr (mergePending_eq_iff strip _ hf1)).symm
  · rw [if_neg hb] at h
    exact absurd h (by simp)

/-! ### writeCells lemmas -/

lemma writeCells_length (idxs : List ℕ) :
    ∀ (data : List Entry) (vals : List (Finset ℕ)),
    (writeCells data idxs vals).length = data.length := by
  induction idxs with
  | nil => intro data vals; cases vals <;> rfl
  | cons i it ih =>
    intro data vals
    cases vals with
    | nil => rfl
    | cons v vt =>
      simp only [writeCells]
      rw [ih]
      exact List.length_set data i _

lemma writeCells_getD_not_mem (idxs : List ℕ) :
    ∀ (data : List Entry) (vals : List (Finset ℕ)) (j : ℕ) (d : Entry),
    j ∉ idxs → (writeCells data idxs vals).getD j d = data.getD j d := by
  induction idxs with
  | nil => intro data vals j d _; cases vals <;> rfl
  | cons i it ih =>
    intro data vals j d hj
    cases vals with
    | nil => rfl
    | cons v vt =>
      simp only [writeCells]
      rw [ih _ vt j d (fun hm => hj (List.mem_cons_of_mem i hm))]
      exact getD_set_ne data i j _ d (fun he => hj (he ▸ List.mem_cons_self i it))

lemma writeCells_getD_mem (idxs : List ℕ) :
    ∀ (data : List Entry) (vals : List (Finset ℕ)) (k : ℕ),
    idxs.Nodup → vals.length = idxs.length → k < idxs.length →
    (∀ i ∈ idxs, i < data.length) →
    (writeCells data idxs vals).getD (idxs.getD k 0) (Entry.cell ∅) =
      Entry.cell (vals.getD k ∅) := by
  induction idxs with
  | nil => intro data vals k _ _ hk _; simp at hk
  | cons i it ih =>
    intro data vals k hnd hlen hk hb
    cases vals with
    | nil => simp at hlen
    | cons v vt =>
      simp only [writeCells]
      cases k with
      | zero =>
        simp only [List.getD_cons_zero]
        rw [writeCells_getD_not_mem it _ vt i _ (List.nodup_cons.mp hnd).1]
        exact getD_set_self data i _ _ (hb i (List.mem_cons_self i it))
      | succ k =>
        simp only [List.getD_cons_succ]
        refine ih _ vt k (List.nodup_cons.mp hnd).2 (by simpa using hlen)
          (by simpa using hk) ?_
        intro j hj
        rw [List.length_set]
        exact hb j (List.mem_cons_of_mem i hj)

lemma cellAt_eq_of_isCellAt {data : List Entry} {i : ℕ}
    (h : isCellAt data i = true) :
    data.getD i (Entry.cell ∅) = Entry.cell (cellAt data i) := by
  unfold isCellAt at h
  unfold cellAt
  cases hq : data.getD i (Entry.cell ∅) with
  | cell c => rfl
  | clue v hh => rw [hq] at h; exact absurd h (by simp [Entry.isCell])

lemma writeCells_self (idxs : List ℕ) :
    ∀ (data : List Entry), (∀ i ∈ idxs, isCellAt data i = true) →
    writeCells data idxs (idxs.map (fun i => cellAt data i)) = data := by
  induction idxs with
  | nil => intro data _; rfl
  | cons i it ih =>
    intro data hc
    simp only [List.map_cons, writeCells]
    have hset : data.set i (Entry.cell (cellAt data i)) = data := by
      rw [← cellAt_eq_of_isCellAt (hc i (List.mem_cons_self i it))]
      exact set_getD_self data i _
    rw [hset]
    exact ih data (fun j hj => hc j (List.mem_cons_of_mem i hj))

lemma set_entryLe (data : List Entry) (i : ℕ) (v : Finset ℕ)
    (hcell : isCellAt data i = true) (hsub : v ⊆ cellAt data i) :
    List.Forall₂ entryLe (data.set i (Entry.cell v)) data := by
  induction data generalizing i with
  | nil => exact List.Forall₂.nil
  | cons e t ih =>
    cases i with
    | zero =>
      cases e with
      | cell c =>
        refine List.Forall₂.cons ?_ (forall2_entryLe_refl t)
        simpa [cellAt] using hsub
      | clue vv hh =>
        exact absurd hcell (by simp [isCellAt, Entry.isCell])
    | succ i =>
      refine List.Forall₂.cons (entryLe_refl e) (ih i ?_ ?_)
      · simpa [isCellAt] using hcell
      · simpa [cellAt] using hsub

lemma writeCells_entryLe (idxs : List ℕ) :
    ∀ (data : List Entry) (vals : List (Finset ℕ)), idxs.Nodup →
    (∀ i ∈ idxs, isCellAt data i = true) →
    List.Forall₂ (fun a b => a ⊆ b) vals (idxs.map (fun i => cellAt data i)) →
    List.Forall₂ entryLe (writeCells data idxs vals) data := by
  induction idxs with
  | nil =>
    intro data vals _ _ hf
    cases hf
    exact forall2_entryLe_refl data
  | cons i it ih =>
    intro data vals hnd hc hf
    rw [List.map_cons] at hf
    cases hf with
    | cons hv htl =>
      rename_i v vt
      simp only [writeCells]
      have hstep : List.Forall₂ entryLe (data.set i (Entry.cell v)) data :=
        set_entryLe data i v (hc i (List.mem_cons_self i it)) hv
      have hmapeq : it.map (fun j => cellAt (data.set i (Entry.cell v)) j) =
          it.map (fun j => cellAt data j) := by
        refine List.map_congr_left (fun j hj => ?_)
        unfold cellAt
        rw [getD_set_ne data i j _ _
          (fun he => (List.nodup_cons.mp hnd).1 (he ▸ hj))]
      refine forall2_entryLe_trans
        (ih (data.set i (Entry.cell v)) vt (List.nodup_cons.mp hnd).2 ?_ ?_) hstep
      · intro j hj
        unfold isCellAt
        rw [getD_set_ne data i j _ _
          (fun he => (List.nodup_cons.mp hnd).1 (he ▸ hj))]
        exact hc j (List.mem_cons_of_mem i hj)
      · rw [hmapeq]
        exact htl

lemma list_eq_of_getD {α} : ∀ (l l' : List α) (d : α), l.length = l'.length →
    (∀ k, k < l.length → l.getD k d = l'.getD k d) → l = l' := by
  intro l
  induction l with
  | nil =>
    intro l' d hlen _
    exact (List.length_eq_zero.mp hlen.symm).symm
  | cons x t ih =>
    intro l' d hlen hp
    cases l' with
    | nil => simp at hlen
    | cons y t' =>
      have h0 := hp 0 (by simp)
      simp only [List.getD_cons_zero] at h0
      rw [h0, ih t' d (by simpa using hlen) (fun k hk => by
        have := hp (k + 1) (by simpa using hk)
        simpa using this)]

lemma mem_takeWhile_pred {α} (p : α → Bool) :
    ∀ (l : List α) (x : α), x ∈ l.takeWhile p → p x = true := by
  intro l
  induction l with
  | nil => intro x hx; simp [List.takeWhile] at hx
  | cons a t ih =>
    intro x hx
    rw [List.takeWhile_cons] at hx
    cases hpa : p a with
    | true =>
      rw [hpa] at hx
      simp only [if_true] at hx
      rcases List.mem_cons.mp hx with he | hm
      · rw [he]; exact hpa
      · exact ih x hm
    | false =>
      rw [hpa] at hx
      simp at hx

lemma getD_mem_of_lt {α} : ∀ (l : List α) (k : ℕ) (d : α), k < l.length →
    l.getD k d ∈ l := by
  intro l
  induction l with
  | nil => intro k d h; simp at h
  | cons a t ih =>
    intro k d h
    cases k with
    | zero => exact List.mem_cons_self a t
    | succ k => exact List.mem_cons_of_mem a (ih k d (by simpa using h))

lemma getD_map_lt {α β} (f : α → β) :
    ∀ (l : List α) (k : ℕ) (d : β) (d0 : α), k < l.length →
    (l.map f).getD k d = f (l.getD k d0) := by
  intro l
  induction l with
  | nil => intro k d d0 h; simp at h
  | cons a t ih =>
    intro k d d0 h
    cases k with
    | zero => rfl
    | succ k => exact ih k d d0 (by simpa using h)

/-- One direction of a pass only shrinks candidate cells (and leaves clue
entries untouched), and reports a change iff the grid data changed. -/
lemma runDirWith_spec
    {proc : ℤ → List (Finset ℕ) → Option (Bool × List (Finset ℕ))}
    (hproc : ∀ {n strip ch strip'}, proc n strip = some (ch, strip') →
      strip'.length = strip.length ∧
      List.Forall₂ (fun a b => a ⊆ b) strip' strip ∧ (ch = true ↔ strip' ≠ strip))
    {data : List Entry} {n : ℤ} {slice : List ℤ} {ch : Bool} {data' : List Entry}
    (hnodup : (slice.map Int.toNat).Nodup)
    (hbound : ∀ i ∈ slice, 0 ≤ i ∧ i < (data.length : ℤ))
    (h : runDirWith proc data n slice = some (ch, data')) :
    data'.length = data.length ∧ List.Forall₂ entryLe data' data ∧
    (ch = true ↔ data' ≠ data) := by
  simp only [runDirWith] at h
  by_cases hn0 : n = 0
  · rw [if_pos hn0] at h
    obtain ⟨h1, h2⟩ := Prod.ext_iff.mp (Option.some.inj h)
    subst h1
    subst h2
    exact ⟨rfl, forall2_entryLe_refl data, by simp⟩
  · rw [if_neg hn0] at h
    set idxs := (slice.map Int.toNat).takeWhile (fun i => isCellAt data i) with hidxs
    have hnd2 : idxs.Nodup := (List.takeWhile_sublist _).nodup hnodup
    have hcellm : ∀ i ∈ idxs, isCellAt data i = true :=
      fun i hi => mem_takeWhile_pred _ _ i hi
    have hbm : ∀ i ∈ idxs, i < data.length := by
      intro i hi
      have hi2 : i ∈ slice.map Int.toNat := (List.takeWhile_sublist _).subset hi
      obtain ⟨j, hj, hji⟩ := List.mem_map.mp hi2
      obtain ⟨hj0, hjlt⟩ := hbound j hj
      omega
    cases hpq : proc n (idxs.map (fun i => cellAt data i)) with
    | none => rw [hpq] at h; exact absurd h (by simp)
    | some r =>
      rw [hpq] at h
      simp only [Option.map_some'] at h
      obtain ⟨h1, h2⟩ := Prod.ext_iff.mp (Option.some.inj h)
      subst h1
      subst h2
      obtain ⟨hL, hS, hI⟩ := hproc hpq
      have hlenI : r.2.length = idxs.length := hL.trans (List.length_map _ _)
      have heq : writeCells data idxs r.2 = data ↔
          r.2 = idxs.map (fun i => cellAt data i) := by
        constructor
        · intro hw
          refine list_eq_of_getD r.2 _ ∅ (by rw [hlenI, List.length_map]) ?_
          intro k hk
          have hk2 : k < idxs.length := hlenI ▸ hk
          have hread := writeCells_getD_mem idxs data r.2 k hnd2
            (hlenI) hk2 hbm
          rw [hw] at hread
          have hcellk := cellAt_eq_of_isCellAt
            (hcellm _ (getD_mem_of_lt idxs k 0 hk2))
          rw [hcellk] at hread
          rw [getD_map_lt _ idxs k ∅ 0 hk2]
          exact (Entry.cell.inj hread).symm
        · intro hv
          rw [hv]
          exact writeCells_self idxs data hcellm
      refine ⟨writeCells_length idxs data r.2,
        writeCells_entryLe idxs data r.2 hnd2 hcellm hS, ?_⟩
      rw [hI]
      exact (not_iff_not.mpr heq).symm

/-! ### Slice index lemmas -/

lemma pyAdjustIdx_pos_bounds (len : ℕ) (x : ℤ) :
    0 ≤ pyAdjustIdx len false x ∧ pyAdjustIdx len false x ≤ len := by
  simp only [pyAdjustIdx, Bool.false_eq_true, if_false]
  split_ifs <;> omega

lemma pyAdjustIdx_neg_bounds (len : ℕ) (x : ℤ) :
    -1 ≤ pyAdjustIdx len true x ∧ pyAdjustIdx len true x ≤ (len : ℤ) - 1 := by
  simp only [pyAdjustIdx, if_true]
  split_ifs <;> omega

lemma sliceIdx_pos_mem {len : ℕ} {start stop step : ℤ} (hstep : 0 < step) :
    ∀ i ∈ sliceIdx len start stop step, 0 ≤ i ∧ i < (len : ℤ) := by
  intro i hi
  unfold sliceIdx at hi
  rw [if_pos hstep] at hi
  set s := pyAdjustIdx len false start with hs
  set e := pyAdjustIdx len false stop with he
  by_cases hlt : s < e
  · rw [if_pos hlt] at hi
    obtain ⟨j, hj, hji⟩ := List.mem_map.mp hi
    rw [List.mem_range] at hj
    obtain ⟨hs0, hsl⟩ := pyAdjustIdx_pos_bounds len start
    obtain ⟨he0, hel⟩ := pyAdjustIdx_pos_bounds len stop
    rw [← hs] at hs0 hsl
    rw [← he] at he0 hel
    have hj' : j ≤ (e - s - 1).toNat / step.toNat := Nat.lt_succ_iff.mp hj
    have hmul : j * step.toNat ≤ (e - s - 1).toNat :=
      (Nat.le_div_iff_mul_le (by omega : 0 < step.toNat)).mp hj'
    have hsnn : (step.toNat : ℤ) = step := Int.toNat_of_nonneg hstep.le
    have hd : ((e - s - 1).toNat : ℤ) = e - s - 1 :=
      Int.toNat_of_nonneg (by omega)
    have hmulZ : ((j * step.toNat : ℕ) : ℤ) ≤ e - s - 1 := by
      rw [← hd]
      exact_mod_cast hmul
    have hij : (j : ℤ) * step = ((j * step.toNat : ℕ) : ℤ) := by
      rw [Nat.cast_mul, hsnn]
    rw [← hji, hij]
    omega
  · rw [if_neg hlt] at hi
    simp at hi

lemma sliceIdx_pos_nodup {len : ℕ} {start stop step : ℤ} (hstep : 0 < step) :
    (sliceIdx len start stop step).Nodup := by
  unfold sliceIdx
  rw [if_pos hstep]
  set s := pyAdjustIdx len false start
  set e := pyAdjustIdx len false stop
  by_cases hlt : s < e
  · rw [if_pos hlt]
    refine List.Nodup.map ?_ (List.nodup_range _)
    intro j1 j2 hj
    have hj2 : (j1 : ℤ) * step = (j2 : ℤ) * step := add_left_cancel hj
    have := mul_right_cancel₀ (by omega : step ≠ 0) hj2
    exact_mod_cast this
  · rw [if_neg hlt]
    exact List.nodup_nil

lemma sliceIdx_nonneg_mem {len : ℕ} {start stop step : ℤ} (hstep : 0 ≤ step) :
    ∀ i ∈ sliceIdx len start stop step, 0 ≤ i ∧ i < (len : ℤ) := by
  rcases eq_or_lt_of_le hstep with hz | hpos
  · intro i hi
    unfold sliceIdx at hi
    rw [if_neg (by omega), if_neg (by omega)] at hi
    simp at hi
  · exact sliceIdx_pos_mem hpos

lemma sliceIdx_nonneg_nodup {len : ℕ} {start stop step : ℤ} (hstep : 0 ≤ step) :
    (sliceIdx len start stop step).Nodup := by
  rcases eq_or_lt_of_le hstep with hz | hpos
  · unfold sliceIdx
    rw [if_neg (by omega), if_neg (by omega)]
    exact List.nodup_nil
  · exact sliceIdx_pos_nodup hpos

lemma nodup_map_toNat {l : List ℤ} (h0 : ∀ i ∈ l, 0 ≤ i) (h : l.Nodup) :
    (l.map Int.toNat).Nodup := by
  refine List.Nodup.map_on ?_ h
  intro x hx y hy hxy
  have h1 := h0 x hx
  have h2 := h0 y hy
  omega

/-- Members of a negative-step slice stay strictly above the adjusted stop
bound (the slice stops before reaching it). -/
lemma sliceIdx_neg_mem_gt {len : ℕ} {start stop step : ℤ} (hstep : step < 0) :
    ∀ i ∈ sliceIdx len start stop step, pyAdjustIdx len true stop < i := by
  intro i hi
  unfold sliceIdx at hi
  rw [if_neg (by omega), if_pos hstep] at hi
  set s := pyAdjustIdx len true start with hs
  set e := pyAdjustIdx len true stop with he
  by_cases hlt : e < s
  · rw [if_pos hlt] at hi
    obtain ⟨j, hj, hji⟩ := List.mem_map.mp hi
    rw [List.mem_range] at hj
    have hj' : j ≤ (s - e - 1).toNat / (-step).toNat := Nat.lt_succ_iff.mp hj
    have hmul : j * (-step).toNat ≤ (s - e - 1).toNat :=
      (Nat.le_div_iff_mul_le (by omega : 0 < (-step).toNat)).mp hj'
    have hsnn : ((-step).toNat : ℤ) = -step := Int.toNat_of_nonneg (by omega)
    have hd : ((s - e - 1).toNat : ℤ) = s - e - 1 :=
      Int.toNat_of_nonneg (by omega)
    have hmulZ : ((j * (-step).toNat : ℕ) : ℤ) ≤ s - e - 1 := by
      rw [← hd]
      exact_mod_cast hmul
    have hij : (j : ℤ) * (-step) = ((j * (-step).toNat : ℕ) : ℤ) := by
      rw [Nat.cast_mul, hsnn]
    rw [← hji]
    omega
  · rw [if_neg hlt] at hi
    simp at hi

/-! ### Pass-level invariant -/

/-- `runDirWith_spec` specialised to a slice with nonnegative step, which is
how both passes traverse runs (south: step `width`; east: step `1`). -/
lemma runDir_nonneg_spec
    {proc : ℤ → List (Finset ℕ) → Option (Bool × List (Finset ℕ))}
    (hproc : ∀ {n strip ch strip'}, proc n strip = some (ch, strip') →
      strip'.length = strip.length ∧
      List.Forall₂ (fun a b => a ⊆ b) strip' strip ∧ (ch = true ↔ strip' ≠ strip))
    {data : List Entry} {n : ℤ} {lenI : ℕ} {a b st : ℤ} (hst : 0 ≤ st)
    (hlen : data.length = lenI) {ch : Bool} {data' : List Entry}
    (h : runDirWith proc data n (sliceIdx lenI a b st) = some (ch, data')) :
    data'.length = data.length ∧ List.Forall₂ entryLe data' data ∧
    (ch = true ↔ data' ≠ data) :=
  runDirWith_spec hproc
    (nodup_map_toNat (fun i hi => (sliceIdx_nonneg_mem hst i hi).1)
      (sliceIdx_nonneg_nodup hst))
    (fun i hi => ⟨(sliceIdx_nonneg_mem hst i hi).1,
      by rw [hlen]; exact (sliceIdx_nonneg_mem hst i hi).2⟩)
    h

lemma passAux_spec {proc : ℤ → List (Finset ℕ) → Option (Bool × List (Finset ℕ))}
    (hproc : ∀ {n strip ch strip'}, proc n strip = some (ch, strip') →
      strip'.length = strip.length ∧
      List.Forall₂ (fun a b => a ⊆ b) strip' strip ∧ (ch = true ↔ strip' ≠ strip))
    (w len : ℕ) :
    ∀ (cl : List ℕ) (data : List Entry), data.length = len →
    ∀ {ch : Bool} {dataF : List Entry},
    passAux proc w len cl data = some (ch, dataF) →
    dataF.length = len ∧ List.Forall₂ entryLe dataF data ∧
    (ch = true ↔ dataF ≠ data) := by
  intro cl
  induction cl with
  | nil =>
    intro data hlen ch dataF h
    obtain ⟨h1, h2⟩ := Prod.ext_iff.mp (Option.some.inj h)
    subst h1
    subst h2
    exact ⟨hlen, forall2_entryLe_refl data, by simp⟩
  | cons idx rest ih =>
    intro data hlen ch dataF h
    simp only [passAux] at h
    rw [Option.bind_eq_some] at h
    obtain ⟨r1, hr1, h⟩ := h
    rw [Option.bind_eq_some] at h
    obtain ⟨r2, hr2, h⟩ := h
    rw [Option.map_eq_some'] at h
    obtain ⟨rR, hrR, hpair⟩ := h
    obtain ⟨hch, hdf⟩ := Prod.ext_iff.mp hpair
    subst hch
    subst hdf
    obtain ⟨s1l, s1f, s1i⟩ :=
      runDir_nonneg_spec hproc (Int.natCast_nonneg w) hlen hr1
    obtain ⟨s2l, s2f, s2i⟩ :=
      runDir_nonneg_spec hproc (by norm_num : (0:ℤ) ≤ 1)
        (s1l.trans hlen) hr2
    obtain ⟨sRl, sRf, sRi⟩ := ih r2.2 (s2l.trans (s1l.trans hlen)) hrR
    have cR1 : List.Forall₂ entryLe rR.2 r1.2 := forall2_entryLe_trans sRf s2f
    refine ⟨sRl, forall2_entryLe_trans cR1 s1f, ?_⟩
    have hiff1 := entry_chain_ne_iff s1f cR1
    have hiff2 := entry_chain_ne_iff s2f sRf
    rw [Bool.or_eq_true, Bool.or_eq_true, s1i, s2i, sRi, hiff1, hiff2]
    exact or_assoc

lemma discard_from_uniques_spec {g : Kakuro} {ch : Bool} {g' : Kakuro}
    (h : discard_from_uniques g = some (ch, g')) :
    g'.width = g.width ∧ g'.height = g.height ∧
    List.Forall₂ entryLe g'.data g.data ∧ (ch = true ↔ g'.data ≠ g.data) := by
  unfold discard_from_uniques at h
  rw [Option.map_eq_some'] at h
  obtain ⟨p, hp, hpair⟩ := h
  obtain ⟨h1, h2⟩ := Prod.ext_iff.mp hpair
  subst h1
  subst h2
  obtain ⟨hl, hf, hi⟩ := passAux_spec
    (fun {n strip ch strip'} h => processRunA_spec h) g.width g.data.length
    (clueIdxs g.data) g.data rfl hp
  exact ⟨rfl, rfl, hf, hi⟩

lemma discard_from_single_clues_spec {g : Kakuro} {ch : Bool} {g' : Kakuro}
    (h : discard_from_single_clues g = some (ch, g')) :
    g'.width = g.width ∧ g'.height = g.height ∧
    List.Forall₂ entryLe g'.data g.data ∧ (ch = true ↔ g'.data ≠ g.data) := by
  unfold discard_from_single_clues at h
  rw [Option.map_eq_some'] at h
  obtain ⟨p, hp, hpair⟩ := h
  obtain ⟨h1, h2⟩ := Prod.ext_iff.mp hpair
  subst h1
  subst h2
  obtain ⟨hl, hf, hi⟩ := passAux_spec
    (fun {n strip ch strip'} h => processRunB_spec h) g.width g.data.length
    (clueIdxs g.data) g.data rfl hp
  exact ⟨rfl, rfl, hf, hi⟩

/-! ### Claim theorems -/

/-- **C5**: `constrain_cells_sum` checks the feasibility precondition
`triangular(K) ≤ N ≤ triangular′(K)` before any narrowing; a violation is the
assertion failure (`none`), which carries no modified state — no candidate
set is touched.  Moreover, for a single run of two unresolved cells with
declared horizontal target 1, Pass A propagation hits exactly this
contradiction (the whole pass returns `none`). -/
theorem C5_feasibility_precondition :
    (∀ (n : ℤ) (cells : List (Finset ℕ)),
      ¬(triangular cells.length ≤ n ∧ n ≤ triangular_prime cells.length) →
      constrain_cells_sum n cells = none) ∧
    discard_from_uniques ⟨3, 1, [Entry.clue 0 1, Entry.cell (Finset.Icc 1 9),
      Entry.cell (Finset.Icc 1 9)]⟩ = none := by
  constructor
  · intro n cells hno
    simp only [constrain_cells_sum]
    rw [if_neg hno]
  · decide

/-- Witness for C5: the precondition part applied at the concrete violating
call `constrain_cells_sum(1, two full cells)` (1 < triangular(2) = 3). -/
theorem C5_feasibility_precondition_witness :
    constrain_cells_sum 1 [Finset.Icc 1 9, Finset.Icc 1 9] = none :=
  C5_feasibility_precondition.1 1 [Finset.Icc 1 9, Finset.Icc 1 9] (by decide)

/-- **C6** (counterexample).  The claim says that whenever pending cells
remain, the range/uniqueness narrowing is invoked with the residual target.
For the run `[{5}, {1..9}]` with target 5 the residual target is 0 while one
pending cell remains; invoking `constrain_cells_sum` with target 0 on one
cell would be an assertion failure (`none`), but the code skips the
narrowing and succeeds, merely subtracting the resolved digit. -/
theorem C6_counterexample :
    processRunA 5 [{5}, Finset.Icc 1 9] =
      some (true, [{5}, Finset.Icc 1 9 \ {5}]) ∧
    constrain_cells_sum 0 [Finset.Icc 1 9 \ {5}] = none := by
  constructor
  · decide
  · decide

/-- **C6** (amended): in Pass A, for a run with nonzero clue target whose
resolved digits are pairwise distinct: if no pending cells remain, a nonzero
residual target is a contradiction (`none`); otherwise the narrowing is
invoked on the subtracted pending cells with the residual target **iff the
residual target is nonzero**, and a zero residual target skips the
narrowing. -/
theorem C6_amended (n : ℤ) (strip : List (Finset ℕ)) (_hn : n ≠ 0)
    (hdup : (substractSetOf strip).card = (uniquesOf strip).length) :
    (pendingOf strip = [] → residualA n strip ≠ 0 →
      processRunA n strip = none) ∧
    (residualA n strip ≠ 0 →
      processRunA n strip = (constrain_cells_sum (residualA n strip)
        ((pendingOf strip).map (fun p => p \ substractSetOf strip))).map
          (fun r => ((pendingOf strip).any
            (fun p => p.card != (p \ substractSetOf strip).card) || r.1,
            mergePending strip r.2))) ∧
    (residualA n strip = 0 →
      processRunA n strip = some ((pendingOf strip).any
        (fun p => p.card != (p \ substractSetOf strip).card),
        mergePending strip ((pendingOf strip).map
          (fun p => p \ substractSetOf strip)))) := by
  simp only [processRunA, pendingOf, uniquesOf, substractSetOf, residualA] at *
  rw [if_pos hdup]
  refine ⟨?_, ?_, ?_⟩
  · intro hp hres
    rw [if_pos hres, hp]
    have hc : constrain_cells_sum (n -
        (((((strip.filter (fun c => isUnique c)).map uniqueValue).toFinset).sum id : ℕ) : ℤ))
        (List.map (fun p => p \ ((strip.filter (fun c => isUnique c)).map uniqueValue).toFinset) []) =
        none := by
      simp only [List.map_nil, constrain_cells_sum, List.length_nil]
      rw [if_neg]
      intro hcon
      have h1 : triangular ((0 : ℕ) : ℤ) = 0 := by decide
      have h2 : triangular_prime ((0 : ℕ) : ℤ) = 0 := by decide
      rw [h1, h2] at hcon
      omega
    rw [hc]
    rfl
  · intro hres
    rw [if_pos hres]
  · intro hres
    rw [if_neg (by omega)]

/-- Witness for C6 (amended): the zero-residual clause applied at the run
`[{5}, {1..9}]` with target 5 — the narrowing is skipped and only the
resolved digit 5 is subtracted. -/
theorem C6_amended_witness :
    processRunA 5 [{5}, Finset.Icc 1 9] =
      some ((pendingOf [{5}, Finset.Icc 1 9]).any
        (fun p => p.card != (p \ substractSetOf [{5}, Finset.Icc 1 9]).card),
        mergePending [{5}, Finset.Icc 1 9]
          ((pendingOf [{5}, Finset.Icc 1 9]).map
            (fun p => p \ substractSetOf [{5}, Finset.Icc 1 9]))) :=
  (C6_amended 5 [{5}, Finset.Icc 1 9] (by decide) (by decide)).2.2 (by decide)

/-- **C9**: Pass B's per-run assertion: after computing the residual target,
either pending cells remain and the residual is strictly positive, or no
pending cells remain and the residual is exactly 0; a run violating this
makes the pass raise an `AssertionError` (modelled by `none`, which aborts
the pass mid-way instead of returning a changed/unchanged result).  The
second conjunct shows it on a concrete grid whose fully resolved run sums to
6 instead of its declared target 5. -/
theorem C9_passB_assertion :
    (∀ (n : ℤ) (strip : List (Finset ℕ)), n ≠ 0 →
      (processRunB n strip = none ↔
        ¬((0 < (pendingOf strip).length ∧ 0 < residualB n strip) ∨
          ((pendingOf strip).length = 0 ∧ residualB n strip = 0)))) ∧
    discard_from_single_clues ⟨3, 1, [Entry.clue 0 5, Entry.cell {2},
      Entry.cell {4}]⟩ = none := by
  constructor
  · intro n strip _
    simp only [processRunB, pendingOf, uniquesOf, residualB]
    by_cases hb : (0 < (strip.filter (fun c => !(isUnique c))).length ∧
        0 < n - ((((strip.filter (fun c => isUnique c)).map uniqueValue).sum : ℕ) : ℤ)) ∨
        ((strip.filter (fun c => !(isUnique c))).length = 0 ∧
          n - ((((strip.filter (fun c => isUnique c)).map uniqueValue).sum : ℕ) : ℤ) = 0)
    · rw [if_pos hb]
      constructor
      · intro hcon
        split at hcon <;> exact absurd hcon (by simp)
      · intro hcon
        exact absurd hb hcon
    · rw [if_neg hb]
      exact iff_of_true rfl hb
  · decide

/-- Witness for C9: the assertion criterion applied at the concrete violating
run `[{2}, {4}]` with target 5 (fully resolved, residual −1 ≠ 0). -/
theorem C9_passB_assertion_witness :
    processRunB 5 [{2}, {4}] = none :=
  (C9_passB_assertion.1 5 [{2}, {4}] (by decide)).mpr (by decide)

/-- **C10**: the two propagation passes and the range narrowing only shrink
candidate sets (entry kinds and clue targets are never modified — captured
by `entryLe` — and the grid dimensions are preserved), and each returns
`true` exactly when some cell's candidate set strictly shrank. -/
theorem C10_shrinking :
    (∀ (n : ℤ) (cells : List (Finset ℕ)) (ch : Bool) (cells' : List (Finset ℕ)),
      constrain_cells_sum n cells = some (ch, cells') →
      cells'.length = cells.length ∧
      List.Forall₂ (fun a b => a ⊆ b) cells' cells ∧
      (ch = true ↔ ∃ i, cells'.getD i ∅ ⊂ cells.getD i ∅)) ∧
    (∀ (g : Kakuro) (ch : Bool) (g' : Kakuro),
      discard_from_uniques g = some (ch, g') →
      g'.width = g.width ∧ g'.height = g.height ∧
      List.Forall₂ entryLe g'.data g.data ∧
      (ch = true ↔ ∃ i c' c, g'.data.getD i (Entry.cell ∅) = Entry.cell c' ∧
        g.data.getD i (Entry.cell ∅) = Entry.cell c ∧ c' ⊂ c)) ∧
    (∀ (g : Kakuro) (ch : Bool) (g' : Kakuro),
      discard_from_single_clues g = some (ch, g') →
      g'.width = g.width ∧ g'.height = g.height ∧
      List.Forall₂ entryLe g'.data g.data ∧
      (ch = true ↔ ∃ i c' c, g'.data.getD i (Entry.cell ∅) = Entry.cell c' ∧
        g.data.getD i (Entry.cell ∅) = Entry.cell c ∧ c' ⊂ c)) := by
  refine ⟨?_, ?_, ?_⟩
  · intro n cells ch cells' h
    obtain ⟨h1, h2, h3⟩ := constrain_cells_sum_spec h
    exact ⟨h1, h2, h3.trans (sub_ne_iff_exists_ssub h2)⟩
  · intro g ch g' h
    obtain ⟨h1, h2, h3, h4⟩ := discard_from_uniques_spec h
    exact ⟨h1, h2, h3, h4.trans (entry_ne_iff_exists_ssub h3)⟩
  · intro g ch g' h
    obtain ⟨h1, h2, h3, h4⟩ := discard_from_single_clues_spec h
    exact ⟨h1, h2, h3, h4.trans (entry_ne_iff_exists_ssub h3)⟩

/-- Witness for C10: the narrowing part at the concrete call
`constrain_cells_sum(4, [{1..9}])`, which narrows the cell to `{4}`. -/
theorem C10_shrinking_witness :
    ([({4} : Finset ℕ)].length = [Finset.Icc 1 9].length) ∧
    List.Forall₂ (fun a b => a ⊆ b) [({4} : Finset ℕ)] [Finset.Icc 1 9] ∧
    (true = true ↔ ∃ i, ([({4} : Finset ℕ)].getD i ∅) ⊂
      ([Finset.Icc 1 9].getD i ∅)) :=
  C10_shrinking.1 4 [Finset.Icc 1 9] true [{4}] (by decide)

/-- **C1** (counterexample).  The claim's formula `triangular′(k) = 9k −
triangular(k)` predicts lower bound `max(12 − (9·1 − triangular(1)), 1) = 4`
for a 2-cell run with target 12, so both full cells would be narrowed to
`{1..9} ∩ [4,9] = {4..9}`.  The code (with
`triangular_prime(k) = 10k − triangular(k) = 9`) narrows them to `{3..9}`
instead. -/
theorem C1_counterexample :
    constrain_cells_sum 12 [Finset.Icc 1 9, Finset.Icc 1 9] =
      some (true, [Finset.Icc 3 9, Finset.Icc 3 9]) ∧
    (max (12 - (9 * ((2 : ℤ) - 1) - triangular ((2 : ℤ) - 1))) 1) = 4 ∧
    (min (12 - triangular ((2 : ℤ) - 1)) 9) = 9 ∧
    (Finset.Icc 3 9 : Finset ℕ) ≠ Finset.Icc 1 9 ∩ Finset.Icc 4 9 := by
  refine ⟨by decide, by decide, by decide, by decide⟩

/-- **C1** (amended): for `K > 1` cells, every successful call of the range
narrowing intersects every cell (after the table-lookup stage, regardless of
whether the lookup succeeded) with the admissible range
`[max(N − triangular′(K−1), 1), min(N − triangular(K−1), 9)]`, where
`triangular(k) = k(k+1)/2` and `triangular′(k) = 10k − triangular(k)` (the
sum of the `k` largest digits; equivalently `9k − triangular(k−1)`). -/
theorem C1_amended (n : ℤ) (cells : List (Finset ℕ)) (ch : Bool)
    (cells' : List (Finset ℕ)) (hK : 1 < cells.length)
    (h : constrain_cells_sum n cells = some (ch, cells')) :
    cells' = (lookupStage n cells).2.map (fun c =>
      c ∩ Finset.Icc (max (n - triangular_prime ((cells.length : ℤ) - 1)) 1).toNat
        (min (n - triangular ((cells.length : ℤ) - 1)) 9).toNat) := by
  simp only [constrain_cells_sum] at h
  by_cases hb : triangular cells.length ≤ n ∧ n ≤ triangular_prime cells.length
  · rw [if_pos hb] at h
    obtain ⟨h1, h2⟩ := Prod.ext_iff.mp (Option.some.inj h)
    dsimp only at h2
    rw [← h2, if_pos hK, if_pos hK]
  · rw [if_neg hb] at h
    exact absurd h (by simp)

/-- Witness for C1 (amended): the concrete call with target 12 over two full
cells, evaluated. -/
theorem C1_amended_witness :
    [Finset.Icc 3 9, Finset.Icc 3 9] =
      (lookupStage 12 [Finset.Icc 1 9, Finset.Icc 1 9]).2.map (fun c =>
        c ∩ Finset.Icc
          (max (12 - triangular_prime ((([Finset.Icc 1 9, Finset.Icc 1 9] :
            List (Finset ℕ)).length : ℤ) - 1)) 1).toNat
          (min (12 - triangular ((([Finset.Icc 1 9, Finset.Icc 1 9] :
            List (Finset ℕ)).length : ℤ) - 1)) 9).toNat) :=
  C1_amended 12 [Finset.Icc 1 9, Finset.Icc 1 9] true
    [Finset.Icc 3 9, Finset.Icc 3 9] (by decide) (by decide)

/-- **C2**: the Combinatorics Table maps `(triangular(L), L)` to `{1..L}` and
`(triangular′(L), L)` to `{10−L..9}` for every run length `L` in 1..9; for
`L` in 2..8 it maps `(triangular(L)+1, L)` to `{1..L−1} ∪ {L+1}` (replace
`L` by `L+1`) and `(triangular′(L)−1, L)` to `{9−L} ∪ {11−L..9}` (replace
`10−L` by `9−L`); and every key present in the table is one of these
(together with the length-1 entries `(S,1) ↦ {S}`). -/
theorem C2_lookup_table :
    (∀ L : ℕ, L ≤ 9 → 1 ≤ L →
      lookup (triangular (L : ℤ), L) = some (Finset.Icc 1 L) ∧
      lookup (triangular_prime (L : ℤ), L) = some (Finset.Icc (10 - L) 9)) ∧
    (∀ L : ℕ, L ≤ 8 → 2 ≤ L →
      lookup (triangular (L : ℤ) + 1, L) =
        some (Finset.Icc 1 (L - 1) ∪ {L + 1}) ∧
      lookup (triangular_prime (L : ℤ) - 1, L) =
        some (Finset.Icc (11 - L) 9 ∪ ({9 - L} : Finset ℕ))) ∧
    (∀ (S : ℤ) (L : ℕ), lookup (S, L) ≠ none → keyListed S L) := by
  refine ⟨?_, ?_, ?_⟩
  · intro L h9 h1
    interval_cases L <;> exact ⟨by decide, by decide⟩
  · intro L h8 h2
    interval_cases L <;> exact ⟨by decide, by decide⟩
  intro S L h
  unfold lookup at h
  cases hf : (lookupEntries.reverse.find? (fun e => e.1 == (S, L))) with
  | none => rw [hf] at h; exact absurd rfl h
  | some e =>
    have hmem : e ∈ lookupEntries := by
      have := List.mem_of_find?_eq_some hf
      exact List.mem_reverse.mp this
    have hkey : e.1 = (S, L) := by
      have := List.find?_some hf
      exact beq_iff_eq.mp this
    have hall : ∀ p ∈ lookupEntries, keyListed p.1.1 p.1.2 := by decide
    have := hall e hmem
    rw [hkey] at this
    exact this

/-- Witness for C2: the bounded quantifiers instantiated at `L = 2` — the
table maps `(3, 2)` to `{1, 2}` — and the key-coverage implication applied
at the present key `(4, 2)`. -/
theorem C2_lookup_table_witness :
    lookup (triangular ((2 : ℕ) : ℤ), 2) = some (Finset.Icc 1 2) ∧
    keyListed 4 2 :=
  ⟨(C2_lookup_table.1 2 (by decide) (by decide)).1,
   C2_lookup_table.2.2 4 2 (by decide)⟩

lemma dedup_length_iff (l : List ℕ) :
    l.dedup.length = l.length ↔ l.Nodup := by
  constructor
  · intro h
    have hd : l.dedup = l := (List.dedup_sublist l).eq_of_length h
    rw [← hd]
    exact List.nodup_dedup l
  · intro h
    rw [List.dedup_eq_self.mpr h]

/-- **C3** (counterexample).  On the grid `[Clue(0,0), Cell({5})]` every cell
is resolved and the sole clue has no nonzero direction, so the claim's
condition holds; yet `is_solved` returns `false`, because the code also
checks the zero-target directions (the horizontal run `[5]` must sum to 0).
The claimed equivalence therefore fails. -/
theorem C3_counterexample :
    is_solved ⟨2, 1, [Entry.clue 0 0, Entry.cell {5}]⟩ = false ∧
    claimSolved ⟨2, 1, [Entry.clue 0 0, Entry.cell {5}]⟩ := by
  constructor
  · decide
  · constructor
    · decide
    · decide

/-- **C3** (amended): the solved-check returns `true` iff every cell holds
exactly one candidate digit and, for every clue, the contiguous run of cells
in **each** direction — zero targets included — has pairwise-distinct
resolved values summing exactly to that direction's target. -/
theorem C3_amended (g : Kakuro) : is_solved g = true ↔ amendedSolved g := by
  unfold is_solved amendedSolved
  rw [Bool.and_eq_true, List.all_eq_true, List.all_eq_true]
  apply and_congr
  · apply forall_congr'
    intro e
    apply imp_congr_right
    intro _
    cases e with
    | cell c =>
      simp only [entryUnique, isUnique]
      exact beq_iff_eq
    | clue v h => simp [entryUnique]
  · apply forall_congr'
    intro rc
    apply imp_congr_right
    intro _
    simp only [Bool.and_eq_true, beq_iff_eq, dedup_length_iff]
    constructor
    · rintro ⟨⟨⟨hdh, hdv⟩, hsv⟩, hsh⟩
      exact ⟨hdv, hdh, hsv, hsh⟩
    · rintro ⟨hdv, hdh, hsv, hsh⟩
      exact ⟨⟨⟨hdh, hdv⟩, hsv⟩, hsh⟩

/-! ### crack lemmas -/

lemma eq_nil_of_head?_none {α} (l : List α) (h : l.head? = none) : l = [] := by
  cases l with
  | nil => rfl
  | cons a t => simp at h

lemma head?_filter_eq {α} (p : α → Bool) :
    ∀ l : List α, (l.filter p).head? = l.find? p := by
  intro l
  induction l with
  | nil => rfl
  | cons a t ih =>
    rw [List.filter_cons]
    cases hpa : p a with
    | true =>
      rw [if_pos rfl, List.find?_cons_of_pos _ hpa]
      rfl
    | false =>
      rw [if_neg (by simp), List.find?_cons_of_neg _ (by simp [hpa])]
      exact ih

lemma eq_nil_of_getLast?_none {α} : ∀ l : List α, l.getLast? = none → l = [] := by
  intro l
  induction l with
  | nil => intro _; rfl
  | cons a t ih =>
    intro h
    cases t with
    | nil => simp at h
    | cons b u =>
      rw [List.getLast?_cons_cons] at h
      exact absurd (ih h) (by simp)

lemma mem_of_getLast?_some {α} : ∀ (l : List α) (a : α), l.getLast? = some a → a ∈ l := by
  intro l
  induction l with
  | nil => intro a h; simp at h
  | cons x t ih =>
    intro a h
    cases t with
    | nil =>
      simp only [List.getLast?_singleton, Option.some.injEq] at h
      rw [h]
      exact List.mem_cons_self a []
    | cons y u =>
      rw [List.getLast?_cons_cons] at h
      exact List.mem_cons_of_mem x (ih a h)

lemma mem_cartesianProduct_length :
    ∀ (ls : List (List ℕ)) (c : List ℕ), c ∈ cartesianProduct ls →
    c.length = ls.length := by
  intro ls
  induction ls with
  | nil =>
    intro c hc
    simp only [cartesianProduct, List.mem_singleton] at hc
    simp [hc]
  | cons l lt ih =>
    intro c hc
    simp only [cartesianProduct, List.mem_flatMap, List.mem_map] at hc
    obtain ⟨x, _, p, hp, hcp⟩ := hc
    rw [← hcp]
    simp [ih p hp]

lemma assignData_set_comm :
    ∀ (is : List ℕ) (data : List Entry) (xs : List ℕ) (i : ℕ) (e : Entry),
    i ∉ is → (assignData data is xs).set i e = assignData (data.set i e) is xs := by
  intro is
  induction is with
  | nil => intro data xs i e _; rfl
  | cons j js ih =>
    intro data xs i e hni
    cases xs with
    | nil => rfl
    | cons x xt =>
      simp only [assignData]
      rw [ih _ xt i e (fun h => hni (List.mem_cons_of_mem j h))]
      rw [List.set_comm _ _ _ (fun h => hni (by
        rw [← h]
        exact List.mem_cons_self j js))]

lemma assignData_assignData :
    ∀ (is : List ℕ) (data : List Entry) (a b : List ℕ),
    is.Nodup → a.length = is.length → b.length = is.length →
    assignData (assignData data is a) is b = assignData data is b := by
  intro is
  induction is with
  | nil => intro data a b _ _ _; rfl
  | cons i it ih =>
    intro data a b hnd ha hb
    cases a with
    | nil => simp at ha
    | cons x xt =>
      cases b with
      | nil => simp at hb
      | cons y yt =>
        simp only [assignData]
        rw [assignData_set_comm it (data.set i (Entry.cell {x})) xt i
          (Entry.cell {y}) (List.nodup_cons.mp hnd).1]
        rw [List.set_set]
        exact ih (data.set i (Entry.cell {y})) xt yt (List.nodup_cons.mp hnd).2
          (by simpa using ha) (by simpa using hb)

lemma pendingCellIdxs_nodup (g : Kakuro) : (pendingCellIdxs g).Nodup :=
  List.Nodup.filter _ (List.nodup_range _)

lemma assign_assign (g : Kakuro) (idxs : List ℕ) (a b : List ℕ)
    (hnd : idxs.Nodup) (ha : a.length = idxs.length) (hb : b.length = idxs.length) :
    assign (assign g idxs a) idxs b = assign g idxs b := by
  simp only [assign]
  rw [assignData_assignData idxs g.data a b hnd ha hb]

/-- **C4** (counterexample).  On the grid `[Clue(0,3), Cell(∅)]` the pending
cell has an empty candidate set, so the Cartesian product is empty: the
search reports failure but the pending cell is left with its original empty
set, not with a "last-tried single-digit assignment" as the claim asserts
for every failing search. -/
theorem C4_counterexample :
    crack ⟨2, 1, [Entry.clue 0 3, Entry.cell ∅]⟩ =
      (false, ⟨2, 1, [Entry.clue 0 3, Entry.cell ∅]⟩) ∧
    pendingCellIdxs ⟨2, 1, [Entry.clue 0 3, Entry.cell ∅]⟩ = [1] ∧
    (cellAt [Entry.clue 0 3, Entry.cell ∅] 1).card ≠ 1 := by
  refine ⟨by decide, by decide, by decide⟩

/-- **C4** (amended): if no enumerated combination satisfies the
solved-check, `crack` reports failure, and — provided at least one
combination was enumerated (all pending candidate sets nonempty) — leaves
the pending cells holding the last-tried single-digit assignment; when no
combination was enumerated the cells are left unchanged.  If some
combination satisfies the solved-check, `crack` commits the first such
combination in enumeration order and reports success, even when several
exist. -/
theorem C4_amended (g : Kakuro) :
    ((crackCombos g).find?
        (fun c => is_solved (assign g (pendingCellIdxs g) c)) = none →
      (crack g).1 = false ∧
      ∀ last, (crackCombos g).getLast? = some last →
        (crack g).2 = assign g (pendingCellIdxs g) last) ∧
    (∀ c, (crackCombos g).find?
        (fun c => is_solved (assign g (pendingCellIdxs g) c)) = some c →
      crack g = (true, assign g (pendingCellIdxs g) c)) := by
  constructor
  · intro hnone
    have hfil : (crackCombos g).filter
        (fun c => is_solved (assign g (pendingCellIdxs g) c)) = [] := by
      refine eq_nil_of_head?_none _ ?_
      rw [head?_filter_eq]
      exact hnone
    constructor
    · show (crack g).1 = false
      simp only [crack]
      rw [hfil]
    · intro last hlast
      show (crack g).2 = _
      simp only [crack]
      rw [hfil, hlast]
  · intro c hc
    have hhead : ((crackCombos g).filter
        (fun c => is_solved (assign g (pendingCellIdxs g) c))).head? = some c := by
      rw [head?_filter_eq]
      exact hc
    cases hfil : (crackCombos g).filter
        (fun c => is_solved (assign g (pendingCellIdxs g) c)) with
    | nil => rw [hfil] at hhead; exact absurd hhead (by simp)
    | cons s t =>
      rw [hfil] at hhead
      have hs : s = c := by
        simp only [List.head?_cons, Option.some.injEq] at hhead
        exact hhead
      have hcm : c ∈ crackCombos g := List.mem_of_find?_eq_some hc
      cases hlast : (crackCombos g).getLast? with
      | none =>
        rw [eq_nil_of_getLast?_none _ hlast] at hcm
        exact absurd hcm (by simp)
      | some last =>
        have hlm : last ∈ crackCombos g := mem_of_getLast?_some _ _ hlast
        have hlenidx : ((pendingCellIdxs g).map
            (fun i => setToList (cellAt g.data i))).length =
            (pendingCellIdxs g).length := List.length_map _ _
        have hassign : assign (assign g (pendingCellIdxs g) last)
            (pendingCellIdxs g) c = assign g (pendingCellIdxs g) c :=
          assign_assign g (pendingCellIdxs g) last c (pendingCellIdxs_nodup g)
            ((mem_cartesianProduct_length _ last hlm).trans hlenidx)
            ((mem_cartesianProduct_length _ c hcm).trans hlenidx)
        show crack g = _
        simp only [crack]
        rw [hfil, hlast, hs]
        dsimp only
        rw [hassign]

/-- Witness for C4 (amended): the success branch applied on the concrete
grid `[Clue(0,9), Cell({4,5}), Cell({4,5})]`, whose first satisfying
combination is `[4, 5]`. -/
theorem C4_amended_witness :
    crack ⟨3, 1, [Entry.clue 0 9, Entry.cell {4, 5}, Entry.cell {4, 5}]⟩ =
      (true, assign ⟨3, 1, [Entry.clue 0 9, Entry.cell {4, 5}, Entry.cell {4, 5}]⟩
        (pendingCellIdxs ⟨3, 1, [Entry.clue 0 9, Entry.cell {4, 5},
          Entry.cell {4, 5}]⟩) [4, 5]) :=
  (C4_amended ⟨3, 1, [Entry.clue 0 9, Entry.cell {4, 5}, Entry.cell {4, 5}]⟩).2
    [4, 5] (by decide)

/-- **C7**: on a grid whose cells are all already unique, the search phase
has an empty pending-cell list (so it enumerates no candidate assignment and
leaves every candidate set unchanged) and its outcome is exactly the
solved-check's verdict on the unchanged grid. -/
theorem C7_all_unique (g : Kakuro) (h : ∀ e ∈ g.data, entryUnique e) :
    pendingCellIdxs g = [] ∧ crack g = (is_solved g, g) := by
  have hp : pendingCellIdxs g = [] := by
    unfold pendingCellIdxs
    rw [List.filter_eq_nil_iff]
    intro i hi
    rw [List.mem_range] at hi
    unfold isCellAt cellAt
    cases hq : g.data.getD i (Entry.cell ∅) with
    | clue v hh => simp [Entry.isCell]
    | cell c =>
      have hmem : Entry.cell c ∈ g.data := by
        rw [← hq]
        exact getD_mem_of_lt g.data i _ hi
      have hcard : c.card = 1 := h _ hmem
      simp [Entry.isCell, isUnique, hcard]
  refine ⟨hp, ?_⟩
  have hcc : crackCombos g = [[]] := by
    unfold crackCombos
    rw [hp]
    rfl
  have hassign : ∀ cb, assign g [] cb = g := fun cb => rfl
  simp only [crack, hp, hcc, hassign]
  cases hs : is_solved g with
  | true => simp [List.filter, hs, hassign]
  | false => simp [List.filter, hs, hassign]

/-- Witness for C7: the concrete one-cell grid `[Cell({3})]`, already
unique. -/
theorem C7_all_unique_witness :
    pendingCellIdxs ⟨1, 1, [Entry.cell {3}]⟩ = [] ∧
    crack ⟨1, 1, [Entry.cell {3}]⟩ =
      (is_solved ⟨1, 1, [Entry.cell {3}]⟩, ⟨1, 1, [Entry.cell {3}]⟩) :=
  C7_all_unique ⟨1, 1, [Entry.cell {3}]⟩ (by decide)

/-- **C8**: the backward directional traversals are partial at the grid
boundary.  (a) `items_north_of` never yields the entry at flat index 0,
because the slice `[(row-1)*width+column:0:-width]` stops before index 0.
(b) `items_west_of` on row 0 yields the empty sequence (its stop index
`row*width-1` becomes `-1`, which Python reads as the last index), even
though for `col ≥ 1` entries to the west exist.  (c) Consequently,
`clues_for` finds no clue (a `StopIteration`, modelled as `none`) for the
cell at (1,0) of a 1×2 grid whose governing vertical clue is the top-left
entry. -/
theorem C8_backward_traversals :
    (∀ (g : Kakuro) (row col : ℕ), g.data.length = g.width * g.height →
      row < g.height → col < g.width → (0 : ℤ) ∉ north_idx g row col) ∧
    (∀ (g : Kakuro) (col : ℕ), g.data.length = g.width * g.height →
      1 ≤ g.height → col < g.width → west_idx g 0 col = []) ∧
    clues_for ⟨1, 2, [Entry.clue 3 0, Entry.cell {3}]⟩ 1 0 = none := by
  refine ⟨?_, ?_, by decide⟩
  · intro g row col hwf hr hc hmem
    have hw : 0 < g.width := by omega
    have hlen : 0 < g.data.length := by
      rw [hwf]
      exact Nat.mul_pos hw (by omega)
    have hgt := sliceIdx_neg_mem_gt (by omega : -(g.width : ℤ) < 0) 0 hmem
    have hadj : pyAdjustIdx g.data.length true 0 = 0 := by
      simp only [pyAdjustIdx]
      split_ifs <;> omega
    rw [hadj] at hgt
    omega
  · intro g col hwf hh hc
    have hw : 0 < g.width := by omega
    have hlen : 0 < g.data.length := by
      rw [hwf]
      exact Nat.mul_pos hw hh
    have hwlen : g.width ≤ g.data.length := by
      rw [hwf]
      exact Nat.le_mul_of_pos_right _ hh
    unfold west_idx
    unfold sliceIdx
    rw [if_neg (by norm_num), if_pos (by norm_num : (-1 : ℤ) < 0)]
    rw [if_neg]
    simp only [Nat.cast_zero, zero_mul, zero_add, not_lt]
    have hb1 := pyAdjustIdx_neg_bounds g.data.length ((col : ℤ) - 1)
    have he : pyAdjustIdx g.data.length true ((0 : ℤ) - 1) =
        (g.data.length : ℤ) - 1 := by
      simp only [pyAdjustIdx]
      split_ifs <;> omega
    have hs : pyAdjustIdx g.data.length true ((col : ℤ) - 1) ≤
        (g.data.length : ℤ) - 1 := hb1.2
    simp only [Nat.cast_zero, zero_mul, zero_add] at he ⊢
    rw [he]
    exact hs

/-- Witness for C8: parts (a) and (b) applied on the concrete 1×2 grid
`[Clue(3,0), Cell({3})]` at the cell (1,0). -/
theorem C8_backward_traversals_witness :
    ((0 : ℤ) ∉ north_idx ⟨1, 2, [Entry.clue 3 0, Entry.cell {3}]⟩ 1 0) ∧
    west_idx ⟨1, 2, [Entry.clue 3 0, Entry.cell {3}]⟩ 0 0 = [] :=
  ⟨C8_backward_traversals.1 ⟨1, 2, [Entry.clue 3 0, Entry.cell {3}]⟩ 1 0
    (by decide) (by decide) (by decide),
   C8_backward_traversals.2.1 ⟨1, 2, [Entry.clue 3 0, Entry.cell {3}]⟩ 0
    (by decide) (by decide) (by decide)⟩

